import Mathlib

/-!
Verification development for the layout-preserving PDF translation engine
(`translate-web-app/backend/translators/pdf_translator.py`).

The Python source is shallowly embedded below: pure fragments become Lean
functions, the stateful single pass of `TranslateConverter.receive_layout`
becomes an explicit fold over a state record, real-valued coordinates are
modelled as rationals, and the external Gemini call is modelled as a
function returning `Except` (the `try/except` in the source catches every
exception of the call).  Content streams are modelled at the level of
whitespace-separated operator tokens, which is exactly the granularity at
which the source manipulates them.
-/

namespace DocTrans

/-- Whitespace characters stripped by Python `str.strip()` (ASCII subset;
the inputs handled by the engine are ASCII-spaced). -/
def pyIsSpace (c : Char) : Bool :=
  c = ' ' || c = '\t' || c = '\n' || c = '\r' || c = Char.ofNat 11 || c = Char.ofNat 12

/-- Python `str.strip()`: drop leading and trailing whitespace. -/
def pyStrip (s : String) : String :=
  ⟨((s.toList.dropWhile pyIsSpace).reverse.dropWhile pyIsSpace).reverse⟩

/-- Python `int()` on a rational: truncation toward zero. -/
def pyInt (q : ℚ) : ℤ :=
  if 0 ≤ q then ⌊q⌋ else -⌊-q⌋

/-- Numpy `np.clip(v, lo, hi)` on integers. -/
def npClip (v lo hi : ℤ) : ℤ :=
  max lo (min v hi)

/-- Python `max` over a list of rationals (defined on nonempty lists; on `[]`
we return `0`, a case the source never reaches because every use is guarded
by a nonemptiness test). -/
def pyMax : List ℚ → ℚ
  | [] => 0
  | q :: qs => qs.foldl max q

/-- Update the last element of a list (`xs[-1] = f xs[-1]` in Python);
identity on the empty list, matching the `len(...) > 0` guards in the
source. -/
def updateLast {α : Type} (f : α → α) : List α → List α
  | [] => []
  | [a] => [f a]
  | a :: rest => a :: updateLast f rest

/-- Python `str.lower()` (ASCII subset — language codes are ASCII). -/
def pyLower (s : String) : String :=
  ⟨s.toList.map Char.toLower⟩

/-- Substring test (`.*pat` anchored regex = `pat` occurs anywhere). -/
def hasSubstr (hay sub : String) : Bool :=
  hay.toList.tails.any (fun t => sub.toList.isPrefixOf t)

-- ==================== Gemini translator (`GeminiTranslator`) ====================

/-- Core of the regex `\x7bv\d+\x7d`: the character list is `{v`, one or
more digits, `}`. -/
def vTokenCore (s : List Char) : Bool :=
  match s with
  | '\x7b' :: 'v' :: rest =>
    let ds := rest.takeWhile Char.isDigit
    decide (ds ≠ []) && decide (rest.drop ds.length = ['\x7d'])
  | _ => false

/-- Python `re.match(r"^\x7bv\d+\x7d$", text)`: anchored match, where `$`
also matches just before a single trailing newline. -/
def reMatchVToken (s : String) : Bool :=
  vTokenCore s.toList ||
    (match s.toList.getLast? with
     | some '\n' => vTokenCore s.toList.dropLast
     | _ => false)

/-- The prompt built by `GeminiTranslator.translate` (lines 149-157 of the
source). -/
def geminiPrompt (langOut text : String) : String :=
  "You are a professional, authentic machine translation engine. " ++
  "Only output the translated text, do not include any other text.\n\n" ++
  "Translate the following text to " ++ langOut ++ ". " ++
  "Keep the formula notation \x7bv*\x7d unchanged. " ++
  "Output translation directly without any additional text.\n\n" ++
  "Source Text: " ++ text ++ "\n\n" ++
  "Translated Text:"

/-- Model of `GeminiTranslator.translate`.  The external model call (and the
`.text.strip()` on its response) is modelled as `api : String → Except
String String`; the source wraps the call in `try/except` and returns the
original text on any exception. -/
def geminiTranslate (api : String → Except String String)
    (langOut text : String) : String :=
  if pyStrip text = "" ∨ reMatchVToken text = true then
    text
  else
    match api (geminiPrompt langOut text) with
    | .ok r => pyStrip r
    | .error _ => text

/-- The dispatch loop of `receive_layout` (lines 404-406): one translator
call per paragraph, in order. -/
def dispatchTranslate (api : String → Except String String)
    (langOut : String) (sstk : List String) : List String :=
  sstk.map (geminiTranslate api langOut)

-- ==================== Adaptive line height ====================

/-- Table `LANG_LINEHEIGHT_MAP` (lines 410-413). -/
def LANG_LINEHEIGHT_MAP : List (String × ℚ) :=
  [("zh", 14/10), ("zh-cn", 14/10), ("zh-tw", 14/10), ("ja", 11/10),
   ("ko", 12/10), ("en", 12/10), ("ar", 1), ("ru", 8/10)]

/-- Lookup `LANG_LINEHEIGHT_MAP.get(lang_out.lower(), 1.1)` (line 414). -/
def defaultLineHeight (langOut : String) : ℚ :=
  match LANG_LINEHEIGHT_MAP.lookup (pyLower langOut) with
  | some v => v
  | none => 11/10

/-- The shrink loop of lines 536-538:
`while (lidx + 1) * size * line_height > height and line_height >= 1:
line_height -= 0.05`. -/
def shrinkLineHeight (lidx : ℕ) (size height : ℚ) (lh : ℚ) : ℚ :=
  if (lidx + 1 : ℚ) * size * lh > height ∧ 1 ≤ lh then
    shrinkLineHeight lidx size height (lh - 1/20)
  else
    lh
termination_by (⌈lh * 20⌉ - 19).toNat
decreasing_by
  rename_i h
  have hceil : ⌈(lh - 1/20) * 20⌉ = ⌈lh * 20⌉ - 1 := by
    have heq : (lh - 1/20) * 20 = lh * 20 - 1 := by ring
    rw [heq]
    exact_mod_cast Int.ceil_sub_int (lh * 20) 1
  have h20 : (20 : ℤ) ≤ ⌈lh * 20⌉ := by
    exact_mod_cast Int.le_ceil_iff.mpr (by push_cast; linarith [h.2])
  rw [hceil]
  omega

-- ==================== Font resource injection ====================

/-- Model of `doc.xref_set_key`: overwrite the entry if the key is present,
otherwise append it. -/
def xrefSetKey (d : List (String × String)) (k v : String) :
    List (String × String) :=
  match d with
  | [] => [(k, v)]
  | (k', v') :: rest =>
    if k' = k then (k, v) :: rest else (k', v') :: xrefSetKey rest k v

/-- The inner injection loop of `translate_pdf` (lines 906-910): for each
logical font name, write a reference only when the dictionary has no entry
of that name (`xref_get_key` returns the type tag `"null"` exactly when
the key is absent, and the source tests `font_exist[0] == "null"`). -/
def injectFonts (fontId : String → String) (names : List String)
    (d : List (String × String)) : List (String × String) :=
  match names with
  | [] => d
  | n :: rest =>
    let d' := if d.lookup n = none then xrefSetKey d n (fontId n ++ " 0 R") else d
    injectFonts fontId rest d'

-- ==================== q/Q balance repair (`process_page`) ====================

/-- Python `str.count(' ' + t + ' ')` for a one-character token `t`: the
number of NON-overlapping occurrences of the three-character pattern,
scanning greedily from the left; a match consumes its three characters, so
in a run like `q q q ` the shared spaces make consecutive occurrences
overlap and only every other one is counted — exactly as `str.count`
does. -/
def countSpTokSp (t : Char) : List Char → ℕ
  | a :: b :: c :: rest =>
    if a = ' ' ∧ b = t ∧ c = ' ' then 1 + countSpTokSp t rest
    else countSpTokSp t (b :: c :: rest)
  | _ => 0

/-- The push count of line 659:
`final_content.count(' q ') + (1 if final_content.startswith('q ') else 0)`. -/
def qCount (s : List Char) : ℕ :=
  countSpTokSp 'q' s + (if ['q', ' '].isPrefixOf s then 1 else 0)

/-- The pop count of line 660: `final_content.count(' Q ')`. -/
def QCount (s : List Char) : ℕ :=
  countSpTokSp 'Q' s

/-- The appended compensation `'Q ' * diff` of lines 669-671. -/
def popsQ (d : ℕ) : List Char :=
  (List.replicate d ['Q', ' ']).flatten

/-- The composed raw page content of line 656:
`q {ops_base}Q 1 0 0 1 {x0} {y0} cm {ops_new}`, at character level. -/
def composePage (opsBase opsNew x0 y0 : List Char) : List Char :=
  "q ".toList ++ opsBase ++ "Q 1 0 0 1 ".toList ++ x0 ++ " ".toList ++ y0 ++
    " cm ".toList ++ opsNew

/-- The balance repair of lines 659-671: compare the substring-based push
and pop counts; when the computed push count is strictly larger, append
the computed difference in pops, just before the trailing `ET ` when the
content ends with one (`final_content[:-3]` modelled as
`take (length - 3)`), else at the very end; in every other case leave the
content unchanged. -/
def repairBalance (c : List Char) : List Char :=
  if qCount c ≠ QCount c then
    if QCount c < qCount c then
      if ("ET ".toList).isSuffixOf c then
        c.take (c.length - 3) ++ popsQ (qCount c - QCount c) ++ "ET ".toList
      else c ++ popsQ (qCount c - QCount c)
    else c
  else c

/-- Whitespace tokenization of a content stream, used to state the TRUE
operator-token counts of a stream (as opposed to the substring-based
counts the repair computes). -/
def spaceSplit : List Char → List (List Char)
  | [] => [[]]
  | c :: rest =>
    if c = ' ' then [] :: spaceSplit rest
    else
      match spaceSplit rest with
      | [] => [[c]]
      | w :: ws => (c :: w) :: ws

/-- Number of occurrences of a standalone token in a content stream. -/
def tokCount (t : String) (s : List Char) : ℕ :=
  ((spaceSplit s).filter (fun w => w = t.toList)).length

-- ==================== Layout model boxes and region mask ====================

/-- A detection of the layout model (`YoloBox`): bounding box `xyxy`,
confidence, class id. -/
structure YoloBox where
  x0 : ℚ
  y0 : ℚ
  x1 : ℚ
  y1 : ℚ
  conf : ℚ
  cls : ℕ
deriving DecidableEq

/-- Stable insertion of a box into a confidence-descending list: the box
goes after every earlier box of greater-or-equal confidence.  Together with
`sortByConfDesc` this is the stable descending sort performed by
`YoloResult.__init__` (`boxes.sort(key=lambda x: x.conf, reverse=True)`). -/
def insertDesc (b : YoloBox) : List YoloBox → List YoloBox
  | [] => [b]
  | a :: rest => if a.conf < b.conf then b :: a :: rest else a :: insertDesc b rest

/-- Stable sort of the detections by descending confidence
(`YoloResult.__init__`, line 59). -/
def sortByConfDesc : List YoloBox → List YoloBox
  | [] => []
  | b :: rest => insertDesc b (sortByConfDesc rest)

/-- A page's region mask (`box` in `translate_pdf`), as a total function
row → column → id; all reads in the source are clipped into bounds. -/
def Mask : Type := ℕ → ℕ → ℕ

/-- The clipped paint rectangle of a box, per lines 944-950 / 955-961:
`(np.clip(int(x0-1),0,w-1), np.clip(int(h-y1-1),0,h-1),
np.clip(int(x1+1),0,w-1), np.clip(int(h-y0+1),0,h-1))`,
returned as `(rowLo, rowHi, colLo, colHi)`. -/
def boxRect (h w : ℕ) (b : YoloBox) : ℕ × ℕ × ℕ × ℕ :=
  ((npClip (pyInt ((h : ℚ) - b.y1 - 1)) 0 ((h : ℤ) - 1)).toNat,
   (npClip (pyInt ((h : ℚ) - b.y0 + 1)) 0 ((h : ℤ) - 1)).toNat,
   (npClip (pyInt (b.x0 - 1)) 0 ((w : ℤ) - 1)).toNat,
   (npClip (pyInt (b.x1 + 1)) 0 ((w : ℤ) - 1)).toNat)

/-- Whether a pixel `(row, col)` lies in the half-open clipped rectangle of
a box (`box[y0:y1, x0:x1]` numpy slice assignment). -/
def inRect (h w : ℕ) (b : YoloBox) (p : ℕ × ℕ) : Bool :=
  let r := boxRect h w b
  decide (r.1 ≤ p.1) && decide (p.1 < r.2.1) && decide (r.2.2.1 ≤ p.2) &&
    decide (p.2 < r.2.2.2)

/-- Assign `v` on the clipped rectangle of box `b`. -/
def paintRect (h w : ℕ) (v : ℕ) (b : YoloBox) (m : Mask) : Mask :=
  fun y x => if inRect h w b (y, x) then v else m y x

/-- The non-body class set `vcls` (line 940). -/
def vcls : List String :=
  ["abandon", "figure", "table", "isolate_formula", "formula_caption"]

/-- One painting pass of `translate_pdf`: fold over the enumerated sorted
boxes, painting `valOf i` for the boxes selected by `pred`. -/
def paintPass (pred : String → Bool) (valOf : ℕ → ℕ) (names : ℕ → String)
    (h w : ℕ) (ebs : List (ℕ × YoloBox)) (m0 : Mask) : Mask :=
  ebs.foldl (fun m p => if pred (names p.2.cls) then paintRect h w (valOf p.1) p.2 m else m) m0

/-- The region mask construction of `translate_pdf` (lines 938-962):
start from all-ones, paint each non-`vcls` box with `i + 2` (first loop),
then paint each `vcls` box with `0` (second loop); `i` enumerates the
confidence-descending box list. -/
def rasterizeMask (names : ℕ → String) (boxes : List YoloBox) (h w : ℕ) : Mask :=
  let ebs := (sortByConfDesc boxes).enum
  let m1 := paintPass (fun n => !(vcls.contains n)) (fun i => i + 2) names h w ebs
    (fun _ _ => 1)
  paintPass (fun n => vcls.contains n) (fun _ => 0) names h w ebs m1

/-- Mask lookup for a primitive at `(x0, y0)` (lines 296-298):
`cx, cy = clip(int(x0), 0, w-1), clip(int(y0), 0, h-1); cls = layout[cy, cx]`. -/
def maskAt (m : Mask) (h w : ℕ) (x0 y0 : ℚ) : ℕ :=
  m (npClip (pyInt y0) 0 ((h : ℤ) - 1)).toNat (npClip (pyInt x0) 0 ((w : ℤ) - 1)).toNat

-- ==================== Glyphs, segments, paragraphs ====================

/-- An interpreted glyph (`LTChar` as used by `receive_layout`): bounding
box, font size, decoded text, font name, the two diagonal entries of its
transform matrix, its cid, an identifier of its font object, and its
width. -/
structure Glyph where
  x0 : ℚ
  x1 : ℚ
  y0 : ℚ
  y1 : ℚ
  size : ℚ
  text : String
  fontname : String
  m0 : ℚ
  m3 : ℚ
  cid : ℕ
  fontRef : ℕ
  width : ℚ
deriving DecidableEq

/-- Default glyph, used only to totalize accesses the source guards by
nonemptiness. -/
def dGlyph : Glyph := ⟨0, 0, 0, 0, 0, "", "", 0, 0, 0, 0, 0⟩

/-- An interpreted line segment (`LTLine`): the two points and the stroke
width. -/
structure Segment where
  p0x : ℚ
  p0y : ℚ
  p1x : ℚ
  p1y : ℚ
  linewidth : ℚ
deriving DecidableEq

/-- Accessor `LTLine.x0` (bounding-box minimum of the two endpoints). -/
def segX0 (s : Segment) : ℚ := min s.p0x s.p1x

/-- Accessor `LTLine.y0`. -/
def segY0 (s : Segment) : ℚ := min s.p0y s.p1y

/-- The `Paragraph` record of the source (lines 213-222). -/
structure Paragraph where
  y : ℚ
  x : ℚ
  x0 : ℚ
  x1 : ℚ
  y0 : ℚ
  y1 : ℚ
  size : ℚ
  brk : Bool
deriving DecidableEq

/-- Default paragraph, used only to totalize guarded accesses. -/
def dPara : Paragraph := ⟨0, 0, 0, 0, 0, 0, 0, false⟩

/-- A child of the page layout visited by `receive_layout`'s first pass. -/
inductive Item where
  | char (g : Glyph)
  | line (s : Segment)
deriving DecidableEq

/-- The glyphs of an item sequence. -/
def itemChars (items : List Item) : List Glyph :=
  items.filterMap (fun it => match it with | .char c => some c | .line _ => none)

-- ==================== vflag (`TranslateConverter.vflag`) ====================

/-- Anchored match of the font-name alternation of line 258:
`CM[^R]|MS.M|XY|MT|BL|RM|EU|LA|RS|LINE|LCIRCLE|TeX-|rsfs|txsy|wasy|stmary|
.*Mono|.*Code|.*Ital|.*Sym|.*Math`. -/
def fontPatternHit (font : String) : Bool :=
  (match font.toList with | 'C' :: 'M' :: c :: _ => decide (c ≠ 'R') | _ => false) ||
  (match font.toList with | 'M' :: 'S' :: _ :: 'M' :: _ => true | _ => false) ||
  "XY".isPrefixOf font || "MT".isPrefixOf font || "BL".isPrefixOf font ||
  "RM".isPrefixOf font || "EU".isPrefixOf font || "LA".isPrefixOf font ||
  "RS".isPrefixOf font || "LINE".isPrefixOf font || "LCIRCLE".isPrefixOf font ||
  "TeX-".isPrefixOf font || "rsfs".isPrefixOf font || "txsy".isPrefixOf font ||
  "wasy".isPrefixOf font || "stmary".isPrefixOf font ||
  hasSubstr font "Mono" || hasSubstr font "Code" || hasSubstr font "Ital" ||
  hasSubstr font "Sym" || hasSubstr font "Math"

/-- Model of `TranslateConverter.vflag` (lines 247-267).  The parameter `ucatMark`
stands for the external Unicode-database query
`unicodedata.category(c) in ["Lm","Mn","Sk","Sm","Zl","Zp","Zs"]`; the
rest of the predicate is modelled concretely. -/
def vflag (ucatMark : Char → Bool) (font0 ch : String) : Bool :=
  let font := (font0.splitOn "+").getLastD font0
  if "(cid:".isPrefixOf ch then true
  else if fontPatternHit font then true
  else
    match ch.toList with
    | [] => false
    | c :: _ =>
      if ch ≠ " " ∧ (ucatMark c ∨ (0x370 ≤ c.toNat ∧ c.toNat < 0x400)) then true
      else false

-- ==================== First pass of `receive_layout` ====================

/-- The bullet character `U+2022` whose class is forced to `0`
(line 300). -/
def bulletStr : String := String.singleton (Char.ofNat 0x2022)

/-- The inline formula reference token `\x7bv<n>\x7d` appended to the
paragraph text when a group is closed (lines 326, 394). -/
def vToken (n : ℕ) : String := "\x7bv" ++ toString n ++ "\x7d"

/-- Page-constant data of the first pass: the page's region mask with its
dimensions, the column-jump threshold `vmax = page.width / 4`, and the
Unicode-category oracle used by `vflag`. -/
structure PassParams where
  layout : Mask
  h : ℕ
  w : ℕ
  vmax : ℚ
  ucatMark : Char → Bool

/-- The running state of the first pass (the parallel accumulator locals of
`receive_layout`, lines 270-282).  The extra field `para` is proof
instrumentation only: it records, for every entry of `sstk`, the list of
glyphs whose text was concatenated into that entry, so that
glyph-to-paragraph membership is a statable property; no source-modelled
field depends on it. -/
structure PassState where
  sstk : List String
  pstk : List Paragraph
  vbkt : ℕ
  vstk : List Glyph
  vlstk : List Segment
  vfix : ℚ
  var : List (List Glyph)
  varl : List (List Segment)
  varf : List ℚ
  lstk : List Segment
  xt : Option Glyph
  xtCls : ℤ
  para : List (List Glyph)

/-- Initial pass state (lines 270-282; `xt_cls = -1`). -/
def initState : PassState :=
  ⟨[], [], 0, [], [], 0, [], [], [], [], none, -1, []⟩

/-- The group-flush block, lines 317-333: close the open `vstk` (recompute
`vfix` for an inline formula that resumed the baseline, reset `xt_cls` if
the current paragraph is empty, append the reference token, move the group
into `var`/`varl`/`varf`, clear the accumulators). -/
def chFlush (s : PassState) (c : Glyph) (cls : ℤ) (curV : Bool) : PassState :=
  if s.vstk ≠ [] then
    { s with
      vfix := 0,
      xtCls := if s.sstk ≠ [] ∧ s.sstk.getLastD "" = "" then -1 else s.xtCls,
      sstk := updateLast (fun t => t ++ vToken s.var.length) s.sstk,
      var := s.var ++ [s.vstk],
      varl := s.varl ++ [s.vlstk],
      varf := s.varf ++
        [if curV = false ∧ cls = s.xtCls ∧ pyMax (s.vstk.map Glyph.x0) < c.x0 then
           (s.vstk.headD dGlyph).y0 - c.y0
         else s.vfix],
      vstk := [],
      vlstk := [] }
  else s

/-- Lines 335-346: when no group is open, either synthesize inter-word
spacing (and possibly the hard-break flag) within the running paragraph, or
open a new paragraph. -/
def chPara (s : PassState) (origXt : Option Glyph) (c : Glyph) (cls : ℤ) : PassState :=
  if s.vstk = [] then
    if cls = s.xtCls ∧ origXt.isSome then
      if (origXt.getD dGlyph).x1 + 1 < c.x0 then
        { s with sstk := updateLast (fun t => t ++ " ") s.sstk }
      else if c.x1 < (origXt.getD dGlyph).x0 then
        { s with
          sstk := updateLast (fun t => t ++ " ") s.sstk,
          pstk := updateLast (fun p => { p with brk := true }) s.pstk }
      else s
    else
      { s with
        sstk := s.sstk ++ [""],
        pstk := s.pstk ++ [⟨c.y0, c.x0, c.x0, c.x0, c.y0, c.y1, c.size, false⟩],
        para := s.para ++ [[]] }
  else s

/-- Lines 349-352: the dominant-size adjustment of the running
paragraph. -/
def chAdjSize (s : PassState) (c : Glyph) : PassState :=
  if s.pstk ≠ [] ∧ (((s.pstk.getLastD dPara).size < c.size ∨
      (pyStrip (s.sstk.getLastD "")).length = 1) ∧ c.text ≠ " ") then
    { s with pstk := updateLast (fun p =>
        { p with y := p.y - (c.size - p.size), size := c.size }) s.pstk }
  else s

/-- Lines 348-358: route the glyph — body text is appended to the current
paragraph's text (after the dominant-size adjustment), otherwise the glyph
is appended to the open group (after the inline-formula `vfix`
computation). -/
def chRoute (s : PassState) (origXt : Option Glyph) (c : Glyph) (cls : ℤ)
    (curV : Bool) : PassState :=
  if curV = false then
    if (chAdjSize s c).sstk ≠ [] then
      { chAdjSize s c with
        sstk := updateLast (fun t => t ++ c.text) (chAdjSize s c).sstk,
        para := updateLast (fun g => g ++ [c]) (chAdjSize s c).para }
    else chAdjSize s c
  else
    { s with
      vfix := if s.vstk = [] ∧ cls = s.xtCls ∧ origXt.isSome ∧
          (origXt.getD dGlyph).x0 < c.x0 then c.y0 - (origXt.getD dGlyph).y0
        else s.vfix,
      vstk := s.vstk ++ [c] }

/-- Lines 360-367: absorb the glyph's extent into the running paragraph's
bounding box and remember the glyph and its class. -/
def chTail (s : PassState) (c : Glyph) (cls : ℤ) : PassState :=
  let s1 :=
    if s.pstk ≠ [] then
      { s with pstk := updateLast (fun p =>
          { p with x0 := min p.x0 c.x0, x1 := max p.x1 c.x1,
                   y0 := min p.y0 c.y0, y1 := max p.y1 c.y1 }) s.pstk }
    else s
  { s1 with xt := some c, xtCls := cls }

/-- One `LTChar` step of the first pass (lines 292-367). -/
def stepChar (P : PassParams) (s : PassState) (c : Glyph) : PassState :=
  let clsRaw : ℕ := maskAt P.layout P.h P.w c.x0 c.y0
  let cls : ℤ := if c.text = bulletStr then 0 else (clsRaw : ℤ)
  let curV0 : Bool :=
    decide (cls = 0) ||
    (decide (cls = s.xtCls) && decide (s.sstk ≠ []) &&
      decide (1 < (pyStrip (s.sstk.getLastD "")).length) &&
      decide (c.size < (s.pstk.getLastD dPara).size * (79/100))) ||
    vflag P.ucatMark c.fontname c.text ||
    (decide (c.m0 = 0) && decide (c.m3 = 0))
  let brkt : Bool × ℕ :=
    if curV0 = false then
      let p1 : Bool × ℕ :=
        if s.vstk ≠ [] ∧ c.text = "(" then (true, s.vbkt + 1) else (curV0, s.vbkt)
      if p1.2 ≠ 0 ∧ c.text = ")" then (true, p1.2 - 1) else p1
    else (curV0, s.vbkt)
  let curV := brkt.1
  let s0 := { s with vbkt := brkt.2 }
  let xtX0 : ℚ := match s.xt with | some g => g.x0 | none => 0
  let s1 :=
    if curV = false ∨ cls ≠ s.xtCls ∨
        (s.sstk ≠ [] ∧ s.sstk.getLastD "" ≠ "" ∧ P.vmax < |c.x0 - xtX0|) then
      chFlush s0 c cls curV
    else s0
  let s2 := chPara s1 s.xt c cls
  let s3 := chRoute s2 s.xt c cls curV
  chTail s3 c cls

/-- One `LTLine` step of the first pass (lines 369-377). -/
def stepLine (P : PassParams) (s : PassState) (l : Segment) : PassState :=
  if s.vstk ≠ [] ∧ ((maskAt P.layout P.h P.w (segX0 l) (segY0 l) : ℕ) : ℤ) = s.xtCls then
    { s with vlstk := s.vlstk ++ [l] }
  else { s with lstk := s.lstk ++ [l] }

/-- One step of the first pass. -/
def stepItem (P : PassParams) (s : PassState) (it : Item) : PassState :=
  match it with
  | .char c => stepChar P s c
  | .line l => stepLine P s l

/-- The whole first pass over a page's children (lines 291-377). -/
def runPass (P : PassParams) (items : List Item) : PassState :=
  items.foldl (stepItem P) initState

/-- The end-of-pass flush of lines 393-397: a still-open group is closed
into `var` provided a paragraph exists. -/
def finalFlush (s : PassState) : PassState :=
  if s.vstk ≠ [] ∧ s.sstk ≠ [] then
    { s with
      sstk := updateLast (fun t => t ++ vToken s.var.length) s.sstk,
      var := s.var ++ [s.vstk],
      varl := s.varl ++ [s.vlstk],
      varf := s.varf ++ [s.vfix] }
  else s

-- ==================== Formula splice and emission ====================

/-- An entry of `ops_vals` (lines 432, 468-533). -/
inductive OpsVal where
  | text (font : Option String) (size x dy : ℚ) (rtxt : String) (lidx : ℕ)
  | line (x dy linewidth xlen ylen : ℚ) (lidx : ℕ)
deriving DecidableEq

/-- A positioned operator of `ops_list` (lines 541-551): only the data the
format string interpolates. -/
inductive FinalOp where
  | text (font : Option String) (size tx ty : ℚ) (rtxt : String)
  | line (tx ty linewidth xlen ylen : ℚ)
deriving DecidableEq

/-- The glyph part of splicing a formula token (lines 485-497): each glyph
of the group is emitted at the running `x` plus its offset from the group's
first glyph, with `dy` the vertical fix plus its offset from the first
glyph.  `fontIdMap` models `self.fontid.get`, `rawStr` models
`self.raw_string`. -/
def spliceText (fontIdMap : ℕ → Option String) (rawStr : Option String → Char → String)
    (x : ℚ) (lidx : ℕ) (fix : ℚ) (fcur : Option String) (v : List Glyph) : List OpsVal :=
  let v0 := v.headD dGlyph
  v.map (fun vch =>
    let vfontId : Option String :=
      match fontIdMap vch.fontRef with
      | some f => some f
      | none => fcur
    OpsVal.text vfontId vch.size (x + vch.x0 - v0.x0) (fix + vch.y0 - v0.y0)
      (rawStr vfontId (Char.ofNat vch.cid)) lidx)

/-- The line part of splicing a formula token (lines 499-509): only
segments of stroke width `< 5` are kept. -/
def spliceLines (x : ℚ) (lidx : ℕ) (fix : ℚ) (v0 : Glyph) (vl : List Segment) :
    List OpsVal :=
  (vl.filter (fun l => l.linewidth < 5)).map (fun l =>
    OpsVal.line (l.p0x + x - v0.x0) (l.p0y + fix - v0.y0) l.linewidth
      (l.p1x - l.p0x) (l.p1y - l.p0y) lidx)

/-- The final emission of an `ops_vals` entry (lines 541-551): a text op is
placed at `(x, dy + y - lidx * size * line_height)`, a line op at
`(x, dy - lidx * size * line_height)`. -/
def emitVal (y size lineHeight : ℚ) : OpsVal → FinalOp
  | .text f sz x dy rtxt lidx => .text f sz x (dy + y - lidx * size * lineHeight) rtxt
  | .line x dy lw xl yl lidx => .line x (dy - lidx * size * lineHeight) lw xl yl

/-- The page-level decorative line emission of lines 553-555: segments of
stroke width `< 5` are re-emitted with unchanged endpoints and width. -/
def pageLineOps (lstk : List Segment) : List FinalOp :=
  (lstk.filter (fun l => l.linewidth < 5)).map (fun l =>
    FinalOp.line l.p0x l.p0y l.linewidth (l.p1x - l.p0x) (l.p1y - l.p0y))

/-- The emitted position of the `i`-th op of a final-op list, when it is a
text op. -/
def textPosAt (l : List FinalOp) (i : ℕ) : Option (ℚ × ℚ) :=
  match l[i]? with
  | some (.text _ _ tx ty _) => some (tx, ty)
  | _ => none

-- ==================== Specification-side definitions ====================

/-- Default box (totalizer for guarded indexing). -/
def dBox : YoloBox := ⟨0, 0, 0, 0, 0, 0⟩

/-- One step of the last-covering-index computation for a pixel: a box
selected by `pred` whose clipped rectangle covers `p` replaces the
accumulator. -/
def coverStep (pred : String → Bool) (names : ℕ → String) (h w : ℕ)
    (p : ℕ × ℕ) (acc : Option ℕ) (q : ℕ × YoloBox) : Option ℕ :=
  if pred (names q.2.cls) && inRect h w q.2 p then some q.1 else acc

/-- The index of the LAST box in paint order that is selected by `pred`
and covers pixel `p` (the last writer of a painting pass). -/
def lastCover (pred : String → Bool) (names : ℕ → String) (h w : ℕ)
    (ebs : List (ℕ × YoloBox)) (p : ℕ × ℕ) : Option ℕ :=
  ebs.foldl (coverStep pred names h w p) none

/-- The RegionMask pixel convention asserted by the spec (claim C1):
a body-text pixel maps to `0` and a pixel covered by a detected non-body
region maps to a non-zero id. -/
def specC1Convention (m : Mask) (bodyPix nonBodyPix : ℕ × ℕ) : Prop :=
  m bodyPix.1 bodyPix.2 = 0 ∧ m nonBodyPix.1 nonBodyPix.2 ≠ 0

/-- The page-level re-emission asserted by the spec (claim C9): the
segment is re-emitted with unchanged endpoints and stroke width. -/
def specC9PageEmit (lstk : List Segment) (l : Segment) : Prop :=
  FinalOp.line l.p0x l.p0y l.linewidth (l.p1x - l.p0x) (l.p1y - l.p0y) ∈ pageLineOps lstk

/-- Every glyph destination of a pass state: the glyphs recorded into each
paragraph (ghost field `para`), the glyphs of every closed VariableGroup
(`var`), and the glyphs of the still-open group (`vstk`). -/
def destList (s : PassState) : List Glyph :=
  s.para.flatten ++ s.var.flatten ++ s.vstk

/-- Structural invariants maintained by the first pass: the ghost
paragraph-membership list is aligned with `sstk`, an open group implies an
open paragraph, and a previously-seen glyph implies an open paragraph. -/
def PassInv (s : PassState) : Prop :=
  s.para.length = s.sstk.length ∧ (s.vstk ≠ [] → s.sstk ≠ []) ∧
    (s.xt.isSome = true → s.sstk ≠ [])

-- ==================== Helper lemmas ====================

theorem updateLast_length {α : Type} (f : α → α) (l : List α) :
    (updateLast f l).length = l.length := by
  induction l with
  | nil => rfl
  | cons a rest ih =>
    cases rest with
    | nil => rfl
    | cons b t => simpa [updateLast] using ih

theorem updateLast_ne_nil {α : Type} (f : α → α) (l : List α) (h : l ≠ []) :
    updateLast f l ≠ [] := by
  cases l with
  | nil => exact absurd rfl h
  | cons a rest => cases rest <;> simp [updateLast]

theorem takeWhile_digits_append (ds : List Char)
    (h2 : ∀ c ∈ ds, c.isDigit) :
    (ds ++ ['\x7d']).takeWhile Char.isDigit = ds := by
  induction ds with
  | nil => simp [List.takeWhile]
  | cons a cs ih =>
    have ha : a.isDigit = true := h2 a (by simp)
    have ih' := ih (fun c hc => h2 c (by simp [hc]))
    simp [List.takeWhile_cons, ha, ih']

theorem vTokenCore_digits (ds : List Char) (h1 : ds ≠ [])
    (h2 : ∀ c ∈ ds, c.isDigit) :
    vTokenCore ('\x7b' :: 'v' :: (ds ++ ['\x7d'])) = true := by
  have htake := takeWhile_digits_append ds h2
  have hdrop : (ds ++ ['\x7d']).drop ds.length = ['\x7d'] := by
    simp
  simp only [vTokenCore, htake]
  rw [hdrop]
  simp [h1]

-- ==================== C10 ====================

/-- C10: an input string that is empty, whitespace-only, or exactly one
formula reference token of the form `\x7bv<digits>\x7d` is returned
unchanged by the translate operation, and the result does not depend on
the external translation capability (the capability is not consulted). -/
theorem c10_trivial_text_not_translated
    (api api' : String → Except String String) (langOut langOut' : String)
    (t : String)
    (h : pyStrip t = "" ∨
      ∃ ds : List Char, ds ≠ [] ∧ (∀ c ∈ ds, c.isDigit) ∧
        t = ⟨'\x7b' :: 'v' :: (ds ++ ['\x7d'])⟩) :
    geminiTranslate api langOut t = t ∧
    geminiTranslate api langOut t = geminiTranslate api' langOut' t := by
  have hguard : pyStrip t = "" ∨ reMatchVToken t = true := by
    rcases h with h | ⟨ds, hne, hdig, ht⟩
    · exact Or.inl h
    · refine Or.inr ?_
      have hcore : vTokenCore t.data = true := by
        rw [ht]
        exact vTokenCore_digits ds hne hdig
      simp only [reMatchVToken, String.toList]
      rw [hcore]
      simp
  constructor
  · simp [geminiTranslate, hguard]
  · simp [geminiTranslate, hguard]

/-- Witness for C10 at the concrete inputs `"\x7bv12\x7d"` (a lone formula
token) and `"  "` (whitespace-only). -/
theorem c10_witness :
    (geminiTranslate (fun _ => Except.ok "X") "zh" "\x7bv12\x7d" = "\x7bv12\x7d" ∧
      geminiTranslate (fun _ => Except.ok "X") "zh" "\x7bv12\x7d" =
        geminiTranslate (fun _ => Except.error "e") "en" "\x7bv12\x7d") ∧
    (geminiTranslate (fun _ => Except.ok "X") "zh" "  " = "  " ∧
      geminiTranslate (fun _ => Except.ok "X") "zh" "  " =
        geminiTranslate (fun _ => Except.error "e") "en" "  ") := by
  constructor
  · exact c10_trivial_text_not_translated _ _ "zh" "en" _
      (Or.inr ⟨['1', '2'], by decide, by decide, by decide⟩)
  · exact c10_trivial_text_not_translated _ _ "zh" "en" _ (Or.inl (by decide))

-- ==================== C5 ====================

/-- C5: when the external translator raises an error on one paragraph's
prompt, the dispatch step returns the original untranslated text for that
paragraph, every other paragraph's result is exactly its own independent
translation, and the page's paragraph list is processed to completion
(same length, no propagation of the failure). -/
theorem c5_translation_failure_is_paragraph_local
    (api : String → Except String String) (langOut : String)
    (sstk : List String) (i : ℕ) (hi : i < sstk.length) (e : String)
    (hfail : api (geminiPrompt langOut sstk[i]) = Except.error e) :
    (dispatchTranslate api langOut sstk).length = sstk.length ∧
    (dispatchTranslate api langOut sstk)[i]? = some sstk[i] ∧
    ∀ j, j ≠ i → (dispatchTranslate api langOut sstk)[j]? =
      (sstk[j]?).map (geminiTranslate api langOut) := by
  refine ⟨by simp [dispatchTranslate], ?_, ?_⟩
  · have hval : geminiTranslate api langOut sstk[i] = sstk[i] := by
      unfold geminiTranslate
      split
      · rfl
      · rw [hfail]
    have hsome : sstk[i]? = some sstk[i] := List.getElem?_eq_getElem hi
    simp [dispatchTranslate, List.getElem?_map, hsome, hval]
  · intro j _
    simp [dispatchTranslate, List.getElem?_map]

/-- Witness for C5: a two-paragraph page whose translator fails on
paragraph 0. -/
theorem c5_witness :
    (dispatchTranslate (fun _ => Except.error "boom") "zh"
      ["Hello world", "Second para"]).length = 2 ∧
    (dispatchTranslate (fun _ => Except.error "boom") "zh"
      ["Hello world", "Second para"])[0]? = some "Hello world" ∧
    (dispatchTranslate (fun _ => Except.error "boom") "zh"
      ["Hello world", "Second para"])[1]? =
      ((["Hello world", "Second para"] : List String)[1]?).map
        (geminiTranslate (fun _ => Except.error "boom") "zh") := by
  have h := c5_translation_failure_is_paragraph_local
    (fun _ => Except.error "boom") "zh" ["Hello world", "Second para"] 0
    (by decide) "boom" rfl
  exact ⟨h.1, h.2.1, h.2.2 1 (by decide)⟩

-- ==================== C8 ====================

theorem lookup_xrefSetKey_self (d : List (String × String)) (k v : String) :
    (xrefSetKey d k v).lookup k = some v := by
  induction d with
  | nil => simp [xrefSetKey, List.lookup]
  | cons p rest ih =>
    obtain ⟨k', v'⟩ := p
    by_cases h : k' = k
    · simp [xrefSetKey, h, List.lookup]
    · have hb : (k == k') = false := beq_eq_false_iff_ne.mpr (Ne.symm h)
      simp [xrefSetKey, h, List.lookup, hb, ih]

theorem lookup_xrefSetKey_ne (d : List (String × String)) (k k' v : String)
    (h : k' ≠ k) : (xrefSetKey d k v).lookup k' = d.lookup k' := by
  have hb : (k' == k) = false := beq_eq_false_iff_ne.mpr h
  induction d with
  | nil => simp [xrefSetKey, List.lookup, hb]
  | cons p rest ih =>
    obtain ⟨ka, va⟩ := p
    by_cases hk : ka = k
    · subst hk
      simp [xrefSetKey, List.lookup, hb]
    · simp [xrefSetKey, hk, List.lookup, ih]

theorem injectFonts_preserves (f : String → String) (ns : List String)
    (d : List (String × String)) (k v : String) (h : d.lookup k = some v) :
    (injectFonts f ns d).lookup k = some v := by
  induction ns generalizing d with
  | nil => simpa [injectFonts] using h
  | cons n rest ih =>
    simp only [injectFonts]
    split
    · rename_i hnone
      have hkn : k ≠ n := by
        intro he
        rw [he] at h
        rw [hnone] at h
        exact Option.noConfusion h
      exact ih _ (by rw [lookup_xrefSetKey_ne _ _ _ _ hkn]; exact h)
    · exact ih _ h

theorem injectFonts_covers (f : String → String) (ns : List String)
    (d : List (String × String)) :
    ∀ n ∈ ns, ((injectFonts f ns d).lookup n).isSome := by
  induction ns generalizing d with
  | nil => intro n hn; exact absurd hn (List.not_mem_nil n)
  | cons m rest ih =>
    intro n hn
    simp only [injectFonts]
    rcases List.mem_cons.mp hn with he | hrest
    · subst he
      split
      · have := lookup_xrefSetKey_self d n (f n ++ " 0 R")
        have := injectFonts_preserves f rest _ n (f n ++ " 0 R") this
        simp [this]
      · rename_i hne
        obtain ⟨v, hv⟩ := Option.ne_none_iff_exists'.mp hne
        have := injectFonts_preserves f rest d n v hv
        simp [this]
    · exact ih _ n hrest

theorem injectFonts_noop (f : String → String) (ns : List String)
    (d : List (String × String)) (h : ∀ n ∈ ns, (d.lookup n).isSome) :
    injectFonts f ns d = d := by
  induction ns with
  | nil => rfl
  | cons n rest ih =>
    simp only [injectFonts]
    have hn : (d.lookup n).isSome := h n (by simp)
    have hne : d.lookup n ≠ none := by
      intro he; rw [he] at hn; exact Bool.noConfusion hn
    rw [if_neg hne]
    exact ih (fun m hm => h m (by simp [hm]))

/-- C8: font-resource injection is idempotent — a second run of the
injection loop on an already-injected dictionary changes nothing — and an
existing same-named entry is never overwritten or renamed (every
pre-existing binding survives unchanged). -/
theorem c8_font_injection_idempotent (f : String → String) (ns : List String)
    (d : List (String × String)) :
    injectFonts f ns (injectFonts f ns d) = injectFonts f ns d ∧
    ∀ k v, d.lookup k = some v → (injectFonts f ns d).lookup k = some v := by
  constructor
  · exact injectFonts_noop f ns _ (fun n hn => injectFonts_covers f ns d n hn)
  · intro k v h
    exact injectFonts_preserves f ns d k v h

/-- Witness for C8: a dictionary already holding `F1`, injected with the
`tiro`/`noto` pair. -/
theorem c8_witness :
    injectFonts (fun _ => "7") ["tiro", "noto"]
        (injectFonts (fun _ => "7") ["tiro", "noto"] [("F1", "9 0 R")]) =
      injectFonts (fun _ => "7") ["tiro", "noto"] [("F1", "9 0 R")] ∧
    (injectFonts (fun _ => "7") ["tiro", "noto"] [("F1", "9 0 R")]).lookup "F1" =
      some "9 0 R" := by
  have h := c8_font_injection_idempotent (fun _ => "7") ["tiro", "noto"]
    [("F1", "9 0 R")]
  exact ⟨h.1, h.2 "F1" "9 0 R" (by decide)⟩

-- ==================== C4 ====================

theorem popsQ_count_q (d : ℕ) : (popsQ d).count 'q' = 0 := by
  induction d with
  | zero => rfl
  | succ n ih =>
    unfold popsQ at ih ⊢
    rw [List.replicate_succ, List.flatten_cons, List.count_append, ih]
    have h0 : List.count 'q' ['Q', ' '] = 0 := rfl
    omega

theorem popsQ_count_Q (d : ℕ) : (popsQ d).count 'Q' = d := by
  induction d with
  | zero => rfl
  | succ n ih =>
    unfold popsQ at ih ⊢
    rw [List.replicate_succ, List.flatten_cons, List.count_append, ih]
    have h1 : List.count 'Q' ['Q', ' '] = 1 := rfl
    omega

theorem suffixET_split (c : List Char)
    (h : ("ET ".toList).isSuffixOf c = true) :
    c.take (c.length - 3) ++ "ET ".toList = c := by
  obtain ⟨p, hp⟩ := List.isSuffixOf_iff_suffix.mp h
  rw [← hp]
  have hlen : (p ++ "ET ".toList).length - 3 = p.length := by simp
  rw [hlen, List.take_left]

/-- C4 (amended): the repair compares the substring-based counts of
lines 659-660 (non-overlapping occurrences of a space-delimited `q`/`Q`,
plus one for the leading push).  When the computed pop count is strictly
below the computed push count it appends EXACTLY the computed difference
of pop tokens — never a push, the `q`-character count is unchanged —
immediately before the terminating `ET ` when present and at the very end
otherwise; in every other case (equal or pop-heavy computed counts) the
stream is left untouched.  Because non-overlapping substring counting
undercounts runs of consecutive operators, the repaired stream is NOT
guaranteed balanced (see the counterexample). -/
theorem c4_balance_repair (opsBase opsNew x0 y0 : List Char) :
    (repairBalance (composePage opsBase opsNew x0 y0)).count 'q' =
      (composePage opsBase opsNew x0 y0).count 'q' ∧
    (repairBalance (composePage opsBase opsNew x0 y0)).count 'Q' =
      (composePage opsBase opsNew x0 y0).count 'Q' +
        (if QCount (composePage opsBase opsNew x0 y0) <
            qCount (composePage opsBase opsNew x0 y0) then
          qCount (composePage opsBase opsNew x0 y0) -
            QCount (composePage opsBase opsNew x0 y0)
         else 0) ∧
    (QCount (composePage opsBase opsNew x0 y0) <
        qCount (composePage opsBase opsNew x0 y0) →
      ("ET ".toList).isSuffixOf (composePage opsBase opsNew x0 y0) = true →
      repairBalance (composePage opsBase opsNew x0 y0) =
        (composePage opsBase opsNew x0 y0).take
            ((composePage opsBase opsNew x0 y0).length - 3) ++
          popsQ (qCount (composePage opsBase opsNew x0 y0) -
            QCount (composePage opsBase opsNew x0 y0)) ++ "ET ".toList) ∧
    (QCount (composePage opsBase opsNew x0 y0) <
        qCount (composePage opsBase opsNew x0 y0) →
      ¬ ("ET ".toList).isSuffixOf (composePage opsBase opsNew x0 y0) = true →
      repairBalance (composePage opsBase opsNew x0 y0) =
        composePage opsBase opsNew x0 y0 ++
          popsQ (qCount (composePage opsBase opsNew x0 y0) -
            QCount (composePage opsBase opsNew x0 y0))) ∧
    (¬ QCount (composePage opsBase opsNew x0 y0) <
        qCount (composePage opsBase opsNew x0 y0) →
      repairBalance (composePage opsBase opsNew x0 y0) =
        composePage opsBase opsNew x0 y0) := by
  set c := composePage opsBase opsNew x0 y0 with hc
  by_cases hlt : QCount c < qCount c
  · have hne : qCount c ≠ QCount c := Nat.ne_of_gt hlt
    have hd : (if QCount c < qCount c then qCount c - QCount c else 0) =
        qCount c - QCount c := if_pos hlt
    by_cases hET : ("ET ".toList).isSuffixOf c = true
    · have hrep : repairBalance c = c.take (c.length - 3) ++
          popsQ (qCount c - QCount c) ++ "ET ".toList := by
        unfold repairBalance
        rw [if_pos hne, if_pos hlt, if_pos hET]
      have hsplit := suffixET_split c hET
      refine ⟨?_, ?_, fun _ _ => hrep, fun _ hcon => absurd hET hcon,
        fun hcon => absurd hlt hcon⟩
      · rw [hrep]
        have h1 : c.count 'q' = (c.take (c.length - 3)).count 'q' +
            ("ET ".toList).count 'q' := by
          conv_lhs => rw [← hsplit]
          rw [List.count_append]
        rw [List.count_append, List.count_append, popsQ_count_q, h1]
        omega
      · rw [hrep, hd]
        have h1 : c.count 'Q' = (c.take (c.length - 3)).count 'Q' +
            ("ET ".toList).count 'Q' := by
          conv_lhs => rw [← hsplit]
          rw [List.count_append]
        rw [List.count_append, List.count_append, popsQ_count_Q, h1]
        omega
    · have hrep : repairBalance c = c ++ popsQ (qCount c - QCount c) := by
        unfold repairBalance
        rw [if_pos hne, if_pos hlt, if_neg hET]
      refine ⟨?_, ?_, fun _ hcon => absurd hcon hET, fun _ _ => hrep,
        fun hcon => absurd hlt hcon⟩
      · rw [hrep, List.count_append, popsQ_count_q]
        omega
      · rw [hrep, hd, List.count_append, popsQ_count_Q]
  · have hrep : repairBalance c = c := by
      unfold repairBalance
      by_cases heq : qCount c = QCount c
      · rw [if_neg (not_not_intro heq)]
      · rw [if_pos heq, if_neg hlt]
    have hd0 : (if QCount c < qCount c then qCount c - QCount c else 0) = 0 :=
      if_neg hlt
    exact ⟨by rw [hrep], by rw [hrep, hd0]; omega, fun hcon => absurd hcon hlt,
      fun hcon => absurd hcon hlt, fun _ => hrep⟩

/-- Counterexample for C4 as stated: (a) two consecutive extra pushes in
the base layer (`ops_base = "q q "`) give a composed stream with THREE
push tokens, but the non-overlapping count of `' q '` sees only two, so
the repair appends a single pop and the final stream keeps 3 pushes
against 2 pops — the claimed push/pop equality after repair fails even
with more pushes than pops; (b) a pop-heavy composition
(`ops_base = "Q "`, 1 push vs 2 pop tokens) is left entirely unrepaired
(the overlapping `Q Q` run is counted once, so the computed counts tie). -/
theorem c4_counterexample :
    tokCount "q" (repairBalance
      (composePage "q q ".toList "ET ".toList "0".toList "0".toList)) = 3 ∧
    tokCount "Q" (repairBalance
      (composePage "q q ".toList "ET ".toList "0".toList "0".toList)) = 2 ∧
    (3 : ℕ) ≠ 2 ∧
    repairBalance (composePage "Q ".toList "ET ".toList "0".toList "0".toList) =
      composePage "Q ".toList "ET ".toList "0".toList "0".toList ∧
    tokCount "q" (composePage "Q ".toList "ET ".toList "0".toList "0".toList) = 1 ∧
    tokCount "Q" (composePage "Q ".toList "ET ".toList "0".toList "0".toList) = 2 := by
  refine ⟨by decide, by decide, by decide, by decide, by decide, by decide⟩

/-- Witness for C4 at the push-heavy run composition ending in `ET `. -/
theorem c4_witness :
    (repairBalance (composePage "q q ".toList "ET ".toList "0".toList
        "0".toList)).count 'q' =
      (composePage "q q ".toList "ET ".toList "0".toList "0".toList).count 'q' ∧
    repairBalance (composePage "q q ".toList "ET ".toList "0".toList "0".toList) =
      (composePage "q q ".toList "ET ".toList "0".toList "0".toList).take
          ((composePage "q q ".toList "ET ".toList "0".toList "0".toList).length - 3) ++
        popsQ (qCount (composePage "q q ".toList "ET ".toList "0".toList "0".toList) -
          QCount (composePage "q q ".toList "ET ".toList "0".toList "0".toList)) ++
        "ET ".toList := by
  have h := c4_balance_repair "q q ".toList "ET ".toList "0".toList "0".toList
  exact ⟨h.1, h.2.2.1 (by decide) (by decide)⟩

-- ==================== C7 ====================

theorem shrinkLineHeight_spec (lidx : ℕ) (size height : ℚ) (lh : ℚ) :
    (∃ k : ℕ, shrinkLineHeight lidx size height lh = lh - k * (1/20)) ∧
    ¬((lidx + 1 : ℚ) * size * shrinkLineHeight lidx size height lh > height ∧
      1 ≤ shrinkLineHeight lidx size height lh) ∧
    min lh (19/20) ≤ shrinkLineHeight lidx size height lh := by
  generalize hm : (⌈lh * 20⌉ - 19).toNat = n
  induction n generalizing lh with
  | zero =>
    have hcond : ¬((lidx + 1 : ℚ) * size * lh > height ∧ 1 ≤ lh) := by
      intro hcon
      have h2 : (20 : ℚ) ≤ lh * 20 := by linarith [hcon.2]
      have h20 : (20 : ℤ) ≤ ⌈lh * 20⌉ := by
        exact_mod_cast Int.le_ceil_iff.mpr (by push_cast; linarith)
      omega
    rw [shrinkLineHeight, if_neg hcond]
    exact ⟨⟨0, by push_cast; ring⟩, hcond, min_le_left _ _⟩
  | succ n ih =>
    by_cases hcond : (lidx + 1 : ℚ) * size * lh > height ∧ 1 ≤ lh
    · rw [shrinkLineHeight, if_pos hcond]
      have hceil : ⌈(lh - 1/20) * 20⌉ = ⌈lh * 20⌉ - 1 := by
        have heq : (lh - 1/20) * 20 = lh * 20 - 1 := by ring
        rw [heq]
        exact_mod_cast Int.ceil_sub_int (lh * 20) 1
      have hm' : (⌈(lh - 1/20) * 20⌉ - 19).toNat = n := by
        have h2 : (20 : ℚ) ≤ lh * 20 := by linarith [hcond.2]
        have h20 : (20 : ℤ) ≤ ⌈lh * 20⌉ := by
          exact_mod_cast Int.le_ceil_iff.mpr (by push_cast; linarith)
        omega
      obtain ⟨⟨k, hk⟩, hexit, hmin⟩ := ih (lh - 1/20) hm'
      refine ⟨⟨k + 1, by rw [hk]; push_cast; ring⟩, hexit, ?_⟩
      have h1 : (1 : ℚ) ≤ lh := hcond.2
      have hminl : min lh (19/20) = (19/20 : ℚ) := min_eq_right (by linarith)
      have hminr : min (lh - 1/20) (19/20) = (19/20 : ℚ) := min_eq_right (by linarith)
      rw [hminl, ← hminr]
      exact hmin
    · rw [shrinkLineHeight, if_neg hcond]
      exact ⟨⟨0, by push_cast; ring⟩, hcond, min_le_left _ _⟩

/-- C7 (amended): starting from the language-default line height, the
shrink loop decrements in fixed steps of `1/20`, always terminates (the
function below is total), and its exit state satisfies the loop's own
negated guard: either the text now fits or the line height has dropped
below `1`.  The final value is bounded below by
`min (default, 19/20)` — i.e. it can end one decrement BELOW the
floor of `1` enforced by the loop guard, and a language default below `1`
(e.g. `ru`) is never shrunk further. -/
theorem c7_line_height_shrink (langOut : String) (lidx : ℕ) (size height : ℚ) :
    (∃ k : ℕ, shrinkLineHeight lidx size height (defaultLineHeight langOut) =
      defaultLineHeight langOut - k * (1/20)) ∧
    ¬((lidx + 1 : ℚ) * size *
        shrinkLineHeight lidx size height (defaultLineHeight langOut) > height ∧
      1 ≤ shrinkLineHeight lidx size height (defaultLineHeight langOut)) ∧
    min (defaultLineHeight langOut) (19/20) ≤
      shrinkLineHeight lidx size height (defaultLineHeight langOut) :=
  shrinkLineHeight_spec lidx size height (defaultLineHeight langOut)

/-- Counterexample for C7 as stated: a three-line paragraph of font size 10
in a box of height 1 with target language `zh` (default line height 1.4)
can never fit; the loop exits at line height `19/20`, strictly BELOW the
floor of `1` that its own guard enforces — emission does not happen at the
floor, but one decrement under it. -/
theorem c7_counterexample :
    shrinkLineHeight 2 10 1 (defaultLineHeight "zh") = 19/20 ∧
    (19 / 20 : ℚ) < 1 := by
  have hlow : pyLower "zh" = "zh" := by decide
  have hdef : defaultLineHeight "zh" = 14/10 := by
    unfold defaultLineHeight
    rw [hlow]
    simp [LANG_LINEHEIGHT_MAP, List.lookup]
  obtain ⟨⟨k, hk⟩, hexit, hmin⟩ := shrinkLineHeight_spec 2 10 1 (defaultLineHeight "zh")
  rw [hdef] at hk hexit hmin ⊢
  refine ⟨?_, by norm_num⟩
  have hge : (19/20 : ℚ) ≤ shrinkLineHeight 2 10 1 (14/10) := by
    have hm : min (14/10 : ℚ) (19/20) = 19/20 := by norm_num
    rw [hm] at hmin
    exact hmin
  have hfits : ((2 : ℕ) + 1 : ℚ) * 10 * shrinkLineHeight 2 10 1 (14/10) > 1 := by
    push_cast
    nlinarith [hge]
  have hlt1 : shrinkLineHeight 2 10 1 (14/10) < 1 := by
    by_contra hc
    push_neg at hc
    exact hexit ⟨hfits, hc⟩
  have h8 : (8 : ℚ) < k := by
    rw [hk] at hlt1
    linarith
  have h9 : (k : ℚ) ≤ 9 := by
    rw [hk] at hge
    linarith
  have hk9 : k = 9 := by
    have ha : 8 < k := by exact_mod_cast h8
    have hb : k ≤ 9 := by exact_mod_cast h9
    omega
  rw [hk, hk9]
  norm_num

-- ==================== Mask characterization ====================

theorem foldl_coverStep_init (pred : String → Bool) (names : ℕ → String)
    (h w : ℕ) (p : ℕ × ℕ) (ebs : List (ℕ × YoloBox)) (acc : Option ℕ) :
    ebs.foldl (coverStep pred names h w p) acc =
      match ebs.foldl (coverStep pred names h w p) none with
      | some i => some i
      | none => acc := by
  induction ebs generalizing acc with
  | nil => rfl
  | cons q rest ih =>
    simp only [List.foldl_cons]
    rw [ih (coverStep pred names h w p acc q),
        ih (coverStep pred names h w p none q)]
    cases hf : rest.foldl (coverStep pred names h w p) none with
    | some i => rfl
    | none =>
      unfold coverStep
      by_cases hc : (pred (names q.2.cls) && inRect h w q.2 p) = true
      · rw [if_pos hc, if_pos hc]
      · rw [if_neg hc, if_neg hc]

theorem foldl_paint_apply (pred : String → Bool) (valOf : ℕ → ℕ)
    (names : ℕ → String) (h w : ℕ) (ebs : List (ℕ × YoloBox)) (m0 : Mask)
    (py px : ℕ) :
    (ebs.foldl (fun m q =>
      if pred (names q.2.cls) then paintRect h w (valOf q.1) q.2 m else m) m0) py px =
      match lastCover pred names h w ebs (py, px) with
      | some i => valOf i
      | none => m0 py px := by
  induction ebs generalizing m0 with
  | nil => rfl
  | cons q rest ih =>
    simp only [List.foldl_cons]
    rw [ih]
    unfold lastCover
    simp only [List.foldl_cons]
    rw [foldl_coverStep_init pred names h w (py, px) rest
      (coverStep pred names h w (py, px) none q)]
    unfold lastCover at *
    cases hf : rest.foldl (coverStep pred names h w (py, px)) none with
    | some i => rfl
    | none =>
      unfold coverStep
      by_cases hp : pred (names q.2.cls)
      · by_cases hin : inRect h w q.2 (py, px)
        · simp [hp, hin, paintRect]
        · simp [hp, hin, paintRect]
      · simp [hp]

theorem rasterizeMask_apply (names : ℕ → String) (boxes : List YoloBox)
    (h w py px : ℕ) :
    rasterizeMask names boxes h w py px =
      match lastCover (fun n => vcls.contains n) names h w
          (sortByConfDesc boxes).enum (py, px) with
      | some _ => 0
      | none =>
        match lastCover (fun n => !(vcls.contains n)) names h w
            (sortByConfDesc boxes).enum (py, px) with
        | some i => i + 2
        | none => 1 := by
  unfold rasterizeMask paintPass
  rw [foldl_paint_apply (fun n => vcls.contains n) (fun _ => 0) names h w
      (sortByConfDesc boxes).enum _ py px]
  cases lastCover (fun n => vcls.contains n) names h w
      (sortByConfDesc boxes).enum (py, px) with
  | some i => rfl
  | none =>
    rw [foldl_paint_apply (fun n => !(vcls.contains n)) (fun i => i + 2) names h w
        (sortByConfDesc boxes).enum _ py px]

theorem foldl_coverStep_all_miss (pred : String → Bool) (names : ℕ → String)
    (h w : ℕ) (p : ℕ × ℕ) (ebs : List (ℕ × YoloBox))
    (hmiss : ∀ q ∈ ebs, ¬(pred (names q.2.cls) = true ∧ inRect h w q.2 p = true)) :
    ∀ acc, ebs.foldl (coverStep pred names h w p) acc = acc := by
  induction ebs with
  | nil => intro acc; rfl
  | cons q rest ih =>
    intro acc
    simp only [List.foldl_cons]
    have hq : coverStep pred names h w p acc q = acc := by
      unfold coverStep
      rw [if_neg]
      intro hand
      exact hmiss q (by simp) (by simpa using hand)
    rw [hq]
    exact ih (fun q' hq' => hmiss q' (by simp [hq'])) acc

theorem lastCover_isSome_of_hit (pred : String → Bool) (names : ℕ → String)
    (h w : ℕ) (p : ℕ × ℕ) (ebs : List (ℕ × YoloBox)) (q : ℕ × YoloBox)
    (hq : q ∈ ebs) (hp : pred (names q.2.cls) = true) (hin : inRect h w q.2 p = true) :
    lastCover pred names h w ebs p ≠ none := by
  induction ebs with
  | nil => exact absurd hq (List.not_mem_nil q)
  | cons r rest ih =>
    unfold lastCover
    simp only [List.foldl_cons]
    rw [foldl_coverStep_init pred names h w p rest (coverStep pred names h w p none r)]
    rcases List.mem_cons.mp hq with he | hrest
    · cases hf : rest.foldl (coverStep pred names h w p) none with
      | some i => simp
      | none =>
        subst he
        unfold coverStep
        rw [if_pos (by simp [hp, hin])]
        simp
    · have := ih hrest
      unfold lastCover at this
      cases hf : rest.foldl (coverStep pred names h w p) none with
      | some i => simp
      | none => exact absurd hf this

theorem mem_insertDesc (b x : YoloBox) (l : List YoloBox) :
    x ∈ insertDesc b l ↔ x = b ∨ x ∈ l := by
  induction l with
  | nil => simp [insertDesc]
  | cons a rest ih =>
    unfold insertDesc
    split
    · simp
    · simp only [List.mem_cons, ih]
      tauto

theorem insertDesc_perm (b : YoloBox) (l : List YoloBox) :
    (insertDesc b l).Perm (b :: l) := by
  induction l with
  | nil => simp [insertDesc]
  | cons a rest ih =>
    unfold insertDesc
    split
    · exact List.Perm.refl _
    · exact (ih.cons a).trans (List.Perm.swap b a rest)

theorem sortByConfDesc_perm (l : List YoloBox) :
    (sortByConfDesc l).Perm l := by
  induction l with
  | nil => exact List.Perm.refl _
  | cons b rest ih =>
    exact (insertDesc_perm b (sortByConfDesc rest)).trans (ih.cons b)

theorem insertDesc_pairwise (b : YoloBox) (l : List YoloBox)
    (hl : l.Pairwise (fun a b' => b'.conf ≤ a.conf)) :
    (insertDesc b l).Pairwise (fun a b' => b'.conf ≤ a.conf) := by
  induction l with
  | nil => simp [insertDesc]
  | cons a rest ih =>
    unfold insertDesc
    have ha := List.pairwise_cons.mp hl
    split
    · rename_i hlt
      refine List.pairwise_cons.mpr ⟨?_, hl⟩
      intro x hx
      rcases List.mem_cons.mp hx with he | hrest
      · subst he; exact le_of_lt hlt
      · exact le_trans (ha.1 x hrest) (le_of_lt hlt)
    · rename_i hnlt
      refine List.pairwise_cons.mpr ⟨?_, ih ha.2⟩
      intro x hx
      rcases (mem_insertDesc b x rest).mp hx with he | hrest
      · subst he; exact not_lt.mp hnlt
      · exact ha.1 x hrest

theorem sortByConfDesc_pairwise (l : List YoloBox) :
    (sortByConfDesc l).Pairwise (fun a b' => b'.conf ≤ a.conf) := by
  induction l with
  | nil => simp [sortByConfDesc]
  | cons b rest ih => exact insertDesc_pairwise b (sortByConfDesc rest) ih

theorem mask_eq_zero_iff (names : ℕ → String) (boxes : List YoloBox)
    (h w py px : ℕ) :
    rasterizeMask names boxes h w py px = 0 ↔
      ∃ b ∈ boxes, vcls.contains (names b.cls) = true ∧
        inRect h w b (py, px) = true := by
  rw [rasterizeMask_apply]
  constructor
  · intro h0
    by_contra hno
    push_neg at hno
    have hmiss : ∀ q ∈ (sortByConfDesc boxes).enum,
        ¬((fun n => vcls.contains n) (names q.2.cls) = true ∧
          inRect h w q.2 (py, px) = true) := by
      intro q hq hand
      have hq2 : q.2 ∈ sortByConfDesc boxes := by
        have hmap : q.2 ∈ (sortByConfDesc boxes).enum.map Prod.snd :=
          List.mem_map_of_mem Prod.snd hq
        rwa [List.enum_map_snd] at hmap
      have hb : q.2 ∈ boxes := (sortByConfDesc_perm boxes).mem_iff.mp hq2
      exact hno q.2 hb hand.1 hand.2
    have hcov : lastCover (fun n => vcls.contains n) names h w
        (sortByConfDesc boxes).enum (py, px) = none :=
      foldl_coverStep_all_miss _ names h w (py, px) _ hmiss none
    rw [hcov] at h0
    cases hf : lastCover (fun n => !(vcls.contains n)) names h w
        (sortByConfDesc boxes).enum (py, px) with
    | some i => rw [hf] at h0; simp at h0
    | none => rw [hf] at h0; simp at h0
  · intro ⟨b, hb, hvc, hin⟩
    have hbs : b ∈ sortByConfDesc boxes := (sortByConfDesc_perm boxes).mem_iff.mpr hb
    obtain ⟨i, hi, hget⟩ := List.mem_iff_getElem.mp hbs
    have hq : (i, b) ∈ (sortByConfDesc boxes).enum := by
      rw [← hget]
      exact List.mem_enum_iff_getElem?.mpr (List.getElem?_eq_getElem hi)
    have hne := lastCover_isSome_of_hit (fun n => vcls.contains n) names h w
      (py, px) _ (i, b) hq (by simpa using hvc) hin
    cases hf : lastCover (fun n => vcls.contains n) names h w
        (sortByConfDesc boxes).enum (py, px) with
    | some j => rfl
    | none => exact absurd hf hne

theorem lastCover_last_hit (pred : String → Bool) (names : ℕ → String)
    (h w : ℕ) (p : ℕ × ℕ) (l : List YoloBox) (j : ℕ) (hj : j < l.length)
    (hhit : pred (names (l.getD j dBox).cls) = true ∧
      inRect h w (l.getD j dBox) p = true)
    (hafter : ∀ k, k < l.length → j < k →
      ¬(pred (names (l.getD k dBox).cls) = true ∧
        inRect h w (l.getD k dBox) p = true)) :
    lastCover pred names h w l.enum p = some j := by
  have hsplit : l.enum = (l.take (j+1)).enum ++
      List.enumFrom (j+1) (l.drop (j+1)) := by
    conv_lhs => rw [← List.take_append_drop (j+1) l]
    rw [List.enum_append, List.length_take]
    congr 2
    omega
  unfold lastCover
  rw [hsplit, List.foldl_append]
  have hfirst : (l.take (j+1)).enum.foldl (coverStep pred names h w p) none =
      some j := by
    have htake : l.take (j+1) = l.take j ++ [l[j]] := by
      rw [List.take_succ, List.getElem?_eq_getElem hj]
      rfl
    rw [htake, List.enum_append, List.foldl_append, List.length_take]
    have hmin : j ⊓ l.length = j := by omega
    rw [hmin]
    show List.foldl (coverStep pred names h w p) _ [(j, l[j])] = some j
    simp only [List.foldl_cons, List.foldl_nil]
    have hhit' : pred (names (l[j]).cls) = true ∧ inRect h w (l[j]) p = true := by
      rwa [List.getD_eq_getElem l dBox hj] at hhit
    unfold coverStep
    rw [if_pos]
    simp [hhit'.1, hhit'.2]
  rw [hfirst]
  apply foldl_coverStep_all_miss
  intro q hq hand
  obtain ⟨i, x⟩ := q
  obtain ⟨hle, hlt, heq⟩ := List.mem_enumFrom hq
  have hlen : i < l.length := by
    rw [List.length_drop] at hlt
    omega
  have hx : x = l[i] := by
    rw [heq, List.getElem_drop]
    congr 1
    omega
  refine hafter i hlen (by omega) ?_
  have hD : l.getD i dBox = l[i] := List.getD_eq_getElem l dBox hlen
  rw [hD, ← hx]
  exact hand

-- ==================== C3 ====================

/-- C3 (amended): the adapter sorts detections by DESCENDING confidence
and paints them in that order, so wherever two non-body boxes overlap the
pixel keeps the id of the box painted LAST — the lower-confidence
detection of the two (its confidence is ≤ that of any earlier box); boxes
of the non-body class set are painted in a second pass and win over every
non-vcls box regardless of confidence.  Concretely: the sorted list is
confidence-descending and a permutation of the input, and a pixel covered
by sorted box `j` (non-vcls), by an earlier sorted box `i`, by no later
non-vcls box and by no vcls box, ends with id `j + 2`, where box `j`'s
confidence is at most box `i`'s. -/
theorem c3_paint_order (names : ℕ → String) (boxes : List YoloBox)
    (h w py px : ℕ) (i j : ℕ) (hij : i < j)
    (hj : j < (sortByConfDesc boxes).length)
    (hjhit : vcls.contains (names ((sortByConfDesc boxes).getD j dBox).cls) = false ∧
      inRect h w ((sortByConfDesc boxes).getD j dBox) (py, px) = true)
    (hafter : ∀ k, k < (sortByConfDesc boxes).length → j < k →
      ¬(vcls.contains (names ((sortByConfDesc boxes).getD k dBox).cls) = false ∧
        inRect h w ((sortByConfDesc boxes).getD k dBox) (py, px) = true))
    (hnovcls : ∀ b ∈ boxes, vcls.contains (names b.cls) = true →
      inRect h w b (py, px) = false) :
    ((sortByConfDesc boxes).Pairwise (fun a b' => b'.conf ≤ a.conf) ∧
      (sortByConfDesc boxes).Perm boxes) ∧
    rasterizeMask names boxes h w py px = j + 2 ∧
    ((sortByConfDesc boxes).getD j dBox).conf ≤
      ((sortByConfDesc boxes).getD i dBox).conf := by
  have hi : i < (sortByConfDesc boxes).length := lt_trans hij hj
  refine ⟨⟨sortByConfDesc_pairwise boxes, sortByConfDesc_perm boxes⟩, ?_, ?_⟩
  · rw [rasterizeMask_apply]
    have hvnone : lastCover (fun n => vcls.contains n) names h w
        (sortByConfDesc boxes).enum (py, px) = none := by
      apply foldl_coverStep_all_miss
      intro q hq hand
      have hq2 : q.2 ∈ sortByConfDesc boxes := by
        have hmap : q.2 ∈ (sortByConfDesc boxes).enum.map Prod.snd :=
          List.mem_map_of_mem Prod.snd hq
        rwa [List.enum_map_snd] at hmap
      have hb : q.2 ∈ boxes := (sortByConfDesc_perm boxes).mem_iff.mp hq2
      have := hnovcls q.2 hb hand.1
      rw [this] at hand
      exact Bool.noConfusion hand.2
    rw [hvnone]
    have hnv : lastCover (fun n => !(vcls.contains n)) names h w
        (sortByConfDesc boxes).enum (py, px) = some j := by
      refine lastCover_last_hit _ names h w (py, px) _ j hj ?_ ?_
      · exact ⟨by rw [hjhit.1]; rfl, hjhit.2⟩
      · intro k hk hjk hand
        refine hafter k hk hjk ⟨?_, hand.2⟩
        have h1 := hand.1
        simpa using h1
    rw [hnv]
  · have hpw := sortByConfDesc_pairwise boxes
    have := List.pairwise_iff_getElem.mp hpw i j hi hj hij
    rwa [List.getD_eq_getElem _ dBox hi, List.getD_eq_getElem _ dBox hj]

/-- Counterexample for C3 as stated: two overlapping non-body detections,
confidences 2 (painted id 2, sorted first) and 1 (painted id 3, sorted
second).  Painting is highest-confidence-FIRST, so at the overlap the
later-painted LOWER-confidence box wins: the mask holds 3, not the
higher-confidence box's id 2. -/
theorem c3_counterexample :
    rasterizeMask (fun _ => "plain text")
      [⟨1, 1, 5, 5, 2, 0⟩, ⟨2, 2, 6, 6, 1, 0⟩] 8 8 3 3 = 3 ∧ (3 : ℕ) ≠ 2 := by
  constructor
  · have hsort : sortByConfDesc [(⟨1, 1, 5, 5, 2, 0⟩ : YoloBox), ⟨2, 2, 6, 6, 1, 0⟩] =
        [⟨1, 1, 5, 5, 2, 0⟩, ⟨2, 2, 6, 6, 1, 0⟩] := by
      unfold sortByConfDesc sortByConfDesc sortByConfDesc insertDesc insertDesc
      norm_num
    have hrect1 : boxRect 8 8 (⟨1, 1, 5, 5, 2, 0⟩ : YoloBox) = (2, 7, 0, 6) := by
      unfold boxRect pyInt npClip
      norm_num
      decide
    have hrect2 : boxRect 8 8 (⟨2, 2, 6, 6, 1, 0⟩ : YoloBox) = (1, 7, 1, 7) := by
      unfold boxRect pyInt npClip
      norm_num
      decide
    have hin1 : inRect 8 8 (⟨1, 1, 5, 5, 2, 0⟩ : YoloBox) (3, 3) = true := by
      rw [inRect, hrect1]
      norm_num
    have hin2 : inRect 8 8 (⟨2, 2, 6, 6, 1, 0⟩ : YoloBox) (3, 3) = true := by
      rw [inRect, hrect2]
      norm_num
    rw [rasterizeMask_apply, hsort]
    have henum : ([(⟨1, 1, 5, 5, 2, 0⟩ : YoloBox), ⟨2, 2, 6, 6, 1, 0⟩]).enum =
        [(0, ⟨1, 1, 5, 5, 2, 0⟩), (1, ⟨2, 2, 6, 6, 1, 0⟩)] := rfl
    rw [henum]
    unfold lastCover
    simp only [List.foldl_cons, List.foldl_nil]
    unfold coverStep
    simp [hin1, hin2, vcls]
  · decide

/-- Witness for C3 on the counterexample's configuration: the sorted order
is descending, the overlap pixel takes id `1 + 2 = 3` from the
lower-confidence box, and that box's confidence is bounded by the
higher-confidence one's. -/
theorem c3_witness :
    ((sortByConfDesc [(⟨1, 1, 5, 5, 2, 0⟩ : YoloBox), ⟨2, 2, 6, 6, 1, 0⟩]).Pairwise
        (fun a b' => b'.conf ≤ a.conf) ∧
      (sortByConfDesc [(⟨1, 1, 5, 5, 2, 0⟩ : YoloBox), ⟨2, 2, 6, 6, 1, 0⟩]).Perm
        [⟨1, 1, 5, 5, 2, 0⟩, ⟨2, 2, 6, 6, 1, 0⟩]) ∧
    rasterizeMask (fun _ => "plain text")
      [⟨1, 1, 5, 5, 2, 0⟩, ⟨2, 2, 6, 6, 1, 0⟩] 8 8 3 3 = 1 + 2 ∧
    ((sortByConfDesc [(⟨1, 1, 5, 5, 2, 0⟩ : YoloBox), ⟨2, 2, 6, 6, 1, 0⟩]).getD 1 dBox).conf ≤
      ((sortByConfDesc [(⟨1, 1, 5, 5, 2, 0⟩ : YoloBox), ⟨2, 2, 6, 6, 1, 0⟩]).getD 0 dBox).conf := by
  have hsort : sortByConfDesc [(⟨1, 1, 5, 5, 2, 0⟩ : YoloBox), ⟨2, 2, 6, 6, 1, 0⟩] =
      [⟨1, 1, 5, 5, 2, 0⟩, ⟨2, 2, 6, 6, 1, 0⟩] := by
    unfold sortByConfDesc sortByConfDesc sortByConfDesc insertDesc insertDesc
    norm_num
  have hrect1 : boxRect 8 8 (⟨1, 1, 5, 5, 2, 0⟩ : YoloBox) = (2, 7, 0, 6) := by
    unfold boxRect pyInt npClip
    norm_num
    decide
  have hrect2 : boxRect 8 8 (⟨2, 2, 6, 6, 1, 0⟩ : YoloBox) = (1, 7, 1, 7) := by
    unfold boxRect pyInt npClip
    norm_num
    decide
  have hin1 : inRect 8 8 (⟨1, 1, 5, 5, 2, 0⟩ : YoloBox) (3, 3) = true := by
    rw [inRect, hrect1]
    norm_num
  have hin2 : inRect 8 8 (⟨2, 2, 6, 6, 1, 0⟩ : YoloBox) (3, 3) = true := by
    rw [inRect, hrect2]
    norm_num
  apply c3_paint_order (fun _ => "plain text")
    [⟨1, 1, 5, 5, 2, 0⟩, ⟨2, 2, 6, 6, 1, 0⟩] 8 8 3 3 0 1 (by norm_num)
    (by rw [hsort]; norm_num)
  · rw [hsort]
    refine ⟨by simp [vcls], ?_⟩
    simpa using hin2
  · intro k hk hjk
    rw [hsort] at hk
    simp only [List.length_cons, List.length_nil] at hk
    omega
  · intro b hb hvc
    exfalso
    rcases List.mem_cons.mp hb with he | hb2
    · subst he; simp [vcls] at hvc
    · rcases List.mem_cons.mp hb2 with he | hb3
      · subst he; simp [vcls] at hvc
      · exact absurd hb3 (List.not_mem_nil b)

-- ==================== C1 ====================

theorem stepChar_vstk_of_cls0 (P : PassParams) (s : PassState) (c : Glyph)
    (hmask : maskAt P.layout P.h P.w c.x0 c.y0 = 0) :
    ∃ pre, (stepChar P s c).vstk = pre ++ [c] := by
  have hcls : (if c.text = bulletStr then (0 : ℤ)
      else ((maskAt P.layout P.h P.w c.x0 c.y0 : ℕ) : ℤ)) = 0 := by
    rw [hmask]
    split <;> simp
  have hTail : ∀ (s' : PassState) (cls : ℤ), (chTail s' c cls).vstk = s'.vstk := by
    intro s' cls
    unfold chTail
    split <;> rfl
  have hRoute : ∀ (s' : PassState) (o : Option Glyph) (cls : ℤ),
      (chRoute s' o c cls true).vstk = s'.vstk ++ [c] := by
    intro s' o cls
    unfold chRoute
    simp
  simp only [stepChar, hcls, decide_True, Bool.true_or, Bool.true_eq_false, if_false]
  exact ⟨_, by rw [hTail, hRoute]⟩

/-- C1 (amended): the RegionMask convention of the code is the INVERSE of
the one the spec states — a pixel's id is `0` exactly when some detected
non-body (`vcls`) box covers it after clipping, every other pixel carries
a non-zero id (`1` background, `i + 2` for non-vcls detections) — and the
Assembler routes a glyph whose mask value at its origin is `0` AWAY from
body text: it is appended to the open VariableGroup accumulator `vstk`,
not to a paragraph. -/
theorem c1_mask_convention (names : ℕ → String) (boxes : List YoloBox)
    (h w py px : ℕ) (P : PassParams) (s : PassState) (c : Glyph)
    (hmask : maskAt P.layout P.h P.w c.x0 c.y0 = 0) :
    (rasterizeMask names boxes h w py px = 0 ↔
      ∃ b ∈ boxes, vcls.contains (names b.cls) = true ∧
        inRect h w b (py, px) = true) ∧
    ∃ pre, (stepChar P s c).vstk = pre ++ [c] := by
  exact ⟨mask_eq_zero_iff names boxes h w py px, stepChar_vstk_of_cls0 P s c hmask⟩

/-- Counterexample for C1 as stated: with a single `figure` detection, the
pixel `(2,2)` inside the figure region is painted `0` (the id the spec
reserves for translatable body text) while the background body-text pixel
`(0,0)` is painted `1` — exactly the opposite of the claimed convention. -/
theorem c1_counterexample :
    ¬ specC1Convention
      (rasterizeMask (fun _ => "figure") [⟨1, 1, 4, 4, 2, 0⟩] 6 6) (0, 0) (2, 2) := by
  intro hcon
  have hbody := hcon.1
  have hrect : boxRect 6 6 (⟨1, 1, 4, 4, 2, 0⟩ : YoloBox) = (1, 5, 0, 5) := by
    unfold boxRect pyInt npClip
    norm_num
    decide
  have hin0 : inRect 6 6 (⟨1, 1, 4, 4, 2, 0⟩ : YoloBox) (0, 0) = false := by
    rw [inRect, hrect]
    norm_num
  have h0 : rasterizeMask (fun _ => "figure") [⟨1, 1, 4, 4, 2, 0⟩] 6 6 0 0 = 1 := by
    rw [rasterizeMask_apply]
    have hsort : sortByConfDesc [(⟨1, 1, 4, 4, 2, 0⟩ : YoloBox)] =
        [⟨1, 1, 4, 4, 2, 0⟩] := rfl
    rw [hsort]
    unfold lastCover
    simp only [List.enum_cons, List.enum_nil]
    simp only [List.foldl_cons, List.foldl_nil]
    unfold coverStep
    have hin0' : inRect 6 6 (⟨1, 1, 4, 4, 2, 0⟩ : YoloBox) 0 = false := by
      rw [← Prod.mk_zero_zero]
      exact hin0
    simp [hin0, hin0', vcls]
  rw [h0] at hbody
  exact Nat.noConfusion hbody

/-- Witness for C1's amended statement: the figure pixel `(2,2)` maps to
`0` because the figure box covers it, and a glyph sitting at mask value
`0` lands in `vstk`. -/
theorem c1_witness :
    ((rasterizeMask (fun _ => "figure") [⟨1, 1, 4, 4, 2, 0⟩] 6 6 2 2 = 0 ↔
      ∃ b ∈ [(⟨1, 1, 4, 4, 2, 0⟩ : YoloBox)], vcls.contains ((fun _ => "figure") b.cls) = true ∧
        inRect 6 6 b (2, 2) = true) ∧
    ∃ pre, (stepChar ⟨fun _ _ => 0, 6, 6, 100, fun _ => false⟩ initState dGlyph).vstk =
      pre ++ [dGlyph]) := by
  apply c1_mask_convention (fun _ => "figure") [⟨1, 1, 4, 4, 2, 0⟩] 6 6 2 2
    ⟨fun _ _ => 0, 6, 6, 100, fun _ => false⟩ initState dGlyph
  rfl

-- ==================== C6 ====================

theorem spliceText_pos (fontIdMap : ℕ → Option String)
    (rawStr : Option String → Char → String) (x : ℚ) (lidx : ℕ) (fix : ℚ)
    (fcur : Option String) (g0 : Glyph) (gs : List Glyph) (y size lh : ℚ)
    (k : ℕ) (hk : k < (g0 :: gs).length) :
    textPosAt ((spliceText fontIdMap rawStr x lidx fix fcur (g0 :: gs)).map
      (emitVal y size lh)) k =
    some (x + (g0 :: gs)[k].x0 - g0.x0,
      fix + (g0 :: gs)[k].y0 - g0.y0 + y - (lidx : ℚ) * size * lh) := by
  unfold textPosAt spliceText
  rw [List.getElem?_map, List.getElem?_map, List.getElem?_eq_getElem hk]
  simp [emitVal]

/-- C6: when a VariableGroup is spliced at a formula token, every glyph of
the group is emitted at the source position translated by ONE common delta
(the new anchor `x` plus the group's vertical fix and the line's baseline
shift), so each glyph's offset relative to the group's first glyph is
identical to its offset on the source page. -/
theorem c6_group_offsets_preserved (fontIdMap : ℕ → Option String)
    (rawStr : Option String → Char → String) (x : ℚ) (lidx : ℕ) (fix : ℚ)
    (fcur : Option String) (g0 : Glyph) (gs : List Glyph) (y size lh : ℚ)
    (i : ℕ) (hi : i < (g0 :: gs).length) :
    ∃ p0 pi : ℚ × ℚ,
      textPosAt ((spliceText fontIdMap rawStr x lidx fix fcur (g0 :: gs)).map
        (emitVal y size lh)) 0 = some p0 ∧
      textPosAt ((spliceText fontIdMap rawStr x lidx fix fcur (g0 :: gs)).map
        (emitVal y size lh)) i = some pi ∧
      pi.1 = (g0 :: gs)[i].x0 + (x - g0.x0) ∧
      pi.2 = (g0 :: gs)[i].y0 + (fix + y - (lidx : ℚ) * size * lh - g0.y0) ∧
      pi.1 - p0.1 = (g0 :: gs)[i].x0 - g0.x0 ∧
      pi.2 - p0.2 = (g0 :: gs)[i].y0 - g0.y0 := by
  have h0 := spliceText_pos fontIdMap rawStr x lidx fix fcur g0 gs y size lh 0
    (by simp)
  have hi' := spliceText_pos fontIdMap rawStr x lidx fix fcur g0 gs y size lh i hi
  refine ⟨_, _, h0, hi', ?_, ?_, ?_, ?_⟩
  · ring
  · ring
  · have hg : (g0 :: gs)[0] = g0 := rfl
    rw [hg]
    ring
  · have hg : (g0 :: gs)[0] = g0 := rfl
    rw [hg]
    ring

/-- Witness for C6: a two-glyph group (anchor at `(0,0)`, second glyph at
`(3,5)`) spliced at `x = 11` with fix `2`, baseline `y = 7`, `lidx = 1`,
size `10`, line height `1`. -/
theorem c6_witness :
    ∃ p0 pi : ℚ × ℚ,
      textPosAt ((spliceText (fun _ => none) (fun _ _ => "") 11 1 2 none
        (dGlyph :: [⟨3, 4, 5, 6, 1, "a", "f", 1, 1, 65, 0, 1⟩])).map
        (emitVal 7 10 1)) 0 = some p0 ∧
      textPosAt ((spliceText (fun _ => none) (fun _ _ => "") 11 1 2 none
        (dGlyph :: [⟨3, 4, 5, 6, 1, "a", "f", 1, 1, 65, 0, 1⟩])).map
        (emitVal 7 10 1)) 1 = some pi ∧
      pi.1 = (dGlyph :: [(⟨3, 4, 5, 6, 1, "a", "f", 1, 1, 65, 0, 1⟩ : Glyph)])[1].x0 +
        (11 - dGlyph.x0) ∧
      pi.2 = (dGlyph :: [(⟨3, 4, 5, 6, 1, "a", "f", 1, 1, 65, 0, 1⟩ : Glyph)])[1].y0 +
        (2 + 7 - ((1 : ℕ) : ℚ) * 10 * 1 - dGlyph.y0) ∧
      pi.1 - p0.1 = (dGlyph :: [(⟨3, 4, 5, 6, 1, "a", "f", 1, 1, 65, 0, 1⟩ : Glyph)])[1].x0 -
        dGlyph.x0 ∧
      pi.2 - p0.2 = (dGlyph :: [(⟨3, 4, 5, 6, 1, "a", "f", 1, 1, 65, 0, 1⟩ : Glyph)])[1].y0 -
        dGlyph.y0 :=
  c6_group_offsets_preserved (fun _ => none) (fun _ _ => "") 11 1 2 none
    dGlyph [⟨3, 4, 5, 6, 1, "a", "f", 1, 1, 65, 0, 1⟩] 7 10 1 1 (by norm_num)

-- ==================== C9 ====================

/-- C9 (amended): only LineSegments of stroke width `< 5` are re-emitted.
A kept group-attached segment is re-emitted with unchanged extent and
width, its x translated by the group's horizontal delta `x - anchor.x0`,
but its vertical delta `fix - anchor.y0 - lidx·size·lineheight` OMITS the
paragraph baseline `y` that the group's glyphs receive; a kept page-level
segment is re-emitted with unchanged endpoints and width.  Segments of
width `≥ 5` are dropped (the emitted list is in bijection with the
filtered list). -/
theorem c9_line_segments (x : ℚ) (lidx : ℕ) (fix : ℚ) (g0 : Glyph)
    (vl lstk : List Segment) (y size lh : ℚ) (l l2 : Segment)
    (hvl : l ∈ vl) (hw : l.linewidth < 5) (hl2 : l2 ∈ lstk)
    (hw2 : l2.linewidth < 5) :
    FinalOp.line (l.p0x + x - g0.x0)
        (l.p0y + fix - g0.y0 - (lidx : ℚ) * size * lh) l.linewidth
        (l.p1x - l.p0x) (l.p1y - l.p0y) ∈
      (spliceLines x lidx fix g0 vl).map (emitVal y size lh) ∧
    FinalOp.line l2.p0x l2.p0y l2.linewidth (l2.p1x - l2.p0x) (l2.p1y - l2.p0y) ∈
      pageLineOps lstk ∧
    (pageLineOps lstk).length = (lstk.filter (fun m => m.linewidth < 5)).length := by
  refine ⟨?_, ?_, by simp [pageLineOps]⟩
  · have hmem : l ∈ vl.filter (fun m => m.linewidth < 5) :=
      List.mem_filter.mpr ⟨hvl, by simpa using hw⟩
    have h1 := List.mem_map_of_mem (fun l => OpsVal.line (l.p0x + x - g0.x0)
      (l.p0y + fix - g0.y0) l.linewidth (l.p1x - l.p0x) (l.p1y - l.p0y) lidx) hmem
    have h2 := List.mem_map_of_mem (emitVal y size lh) h1
    have heq : FinalOp.line (l.p0x + x - g0.x0)
        (l.p0y + fix - g0.y0 - (lidx : ℚ) * size * lh) l.linewidth
        (l.p1x - l.p0x) (l.p1y - l.p0y) =
        emitVal y size lh (OpsVal.line (l.p0x + x - g0.x0)
          (l.p0y + fix - g0.y0) l.linewidth (l.p1x - l.p0x) (l.p1y - l.p0y) lidx) := by
      simp only [emitVal]
    rw [heq]
    exact h2
  · exact List.mem_map_of_mem _ (List.mem_filter.mpr ⟨hl2, by simpa using hw2⟩)

/-- Counterexample for C9 as stated: (a) a page-level decorative segment
of stroke width exactly 5 is NOT re-emitted (the claim says segments are
preserved regardless of stroke width); (b) a group-attached segment
starting at the anchor's own position is re-emitted WITHOUT the paragraph
baseline `y = 7` that the anchor glyph itself receives, so it is not
repositioned by the same delta as its group. -/
theorem c9_counterexample :
    ¬ specC9PageEmit [⟨0, 0, 10, 0, 5⟩] ⟨0, 0, 10, 0, 5⟩ ∧
    (spliceLines 0 0 0 dGlyph [⟨0, 0, 1, 0, 1⟩]).map (emitVal 7 1 1) =
      [FinalOp.line 0 0 1 1 0] ∧
    textPosAt ((spliceText (fun _ => none) (fun _ _ => "") 0 0 0 none [dGlyph]).map
      (emitVal 7 1 1)) 0 = some (0, 7) ∧ (7 : ℚ) ≠ 0 := by
  refine ⟨?_, ?_, ?_, by norm_num⟩
  · intro hcon
    unfold specC9PageEmit pageLineOps at hcon
    norm_num at hcon
  · unfold spliceLines
    norm_num [emitVal, dGlyph]
  · have h := spliceText_pos (fun _ => none) (fun _ _ => "") 0 0 0 none
      dGlyph [] 7 1 1 0 (by norm_num)
    rw [h]
    norm_num [dGlyph]

/-- Witness for C9's amended statement at a concrete width-1 group segment
and a concrete width-2 page-level segment. -/
theorem c9_witness :
    FinalOp.line ((0 : ℚ) + 11 - dGlyph.x0)
        ((0 : ℚ) + 2 - dGlyph.y0 - ((1 : ℕ) : ℚ) * 10 * 1) (1 : ℚ)
        ((1 : ℚ) - 0) ((0 : ℚ) - 0) ∈
      (spliceLines 11 1 2 dGlyph [⟨0, 0, 1, 0, 1⟩]).map (emitVal 7 10 1) ∧
    FinalOp.line (2 : ℚ) 3 2 ((4 : ℚ) - 2) ((5 : ℚ) - 3) ∈
      pageLineOps [⟨2, 3, 4, 5, 2⟩] ∧
    (pageLineOps [(⟨2, 3, 4, 5, 2⟩ : Segment)]).length =
      ([(⟨2, 3, 4, 5, 2⟩ : Segment)].filter (fun m => m.linewidth < 5)).length := by
  have h := c9_line_segments 11 1 2 dGlyph [⟨0, 0, 1, 0, 1⟩] [⟨2, 3, 4, 5, 2⟩]
    7 10 1 ⟨0, 0, 1, 0, 1⟩ ⟨2, 3, 4, 5, 2⟩ (by simp) (by norm_num) (by simp)
    (by norm_num)
  exact h

-- ==================== C2 ====================

theorem flatten_updateLast_concat {α : Type} (c : α) (l : List (List α))
    (h : l ≠ []) :
    (updateLast (fun g => g ++ [c]) l).flatten = l.flatten ++ [c] := by
  induction l with
  | nil => exact absurd rfl h
  | cons a rest ih =>
    cases rest with
    | nil => simp [updateLast]
    | cons b t =>
      have ih' := ih (by simp)
      show (a :: updateLast (fun g => g ++ [c]) (b :: t)).flatten =
        (a :: b :: t).flatten ++ [c]
      simp only [List.flatten_cons]
      rw [ih']
      simp [List.append_assoc]

theorem chFlush_spec (s : PassState) (c : Glyph) (cls : ℤ) (curV : Bool) :
    destList (chFlush s c cls curV) = destList s ∧
    (chFlush s c cls curV).sstk.length = s.sstk.length ∧
    (chFlush s c cls curV).para = s.para ∧
    (chFlush s c cls curV).vstk = [] ∧
    (chFlush s c cls curV).xt = s.xt := by
  unfold chFlush
  split
  · refine ⟨?_, ?_, rfl, rfl, rfl⟩
    · simp [destList, List.flatten_append]
    · simp [updateLast_length]
  · rename_i hne
    have hv : s.vstk = [] := not_ne_iff.mp hne
    exact ⟨rfl, rfl, rfl, hv, rfl⟩

theorem chPara_spec (s : PassState) (o : Option Glyph) (c : Glyph) (cls : ℤ) :
    destList (chPara s o c cls) = destList s ∧
    (chPara s o c cls).vstk = s.vstk ∧
    (s.para.length = s.sstk.length →
      (chPara s o c cls).para.length = (chPara s o c cls).sstk.length) ∧
    (s.vstk ≠ [] → chPara s o c cls = s) ∧
    (s.vstk = [] → (o.isSome = true → s.sstk ≠ []) → (chPara s o c cls).sstk ≠ []) := by
  unfold chPara
  split
  · rename_i hv
    split
    · rename_i hco
      split
      · refine ⟨rfl, rfl, ?_, fun hne => absurd hv hne, ?_⟩
        · intro h
          simp [updateLast_length, h]
        · intro _ hso
          exact updateLast_ne_nil _ _ (hso hco.2)
      · split
        · refine ⟨rfl, rfl, ?_, fun hne => absurd hv hne, ?_⟩
          · intro h
            simp [updateLast_length, h]
          · intro _ hso
            exact updateLast_ne_nil _ _ (hso hco.2)
        · exact ⟨rfl, rfl, fun h => h, fun hne => absurd hv hne, fun _ hso => hso hco.2⟩
    · refine ⟨?_, rfl, ?_, fun hne => absurd hv hne, ?_⟩
      · simp [destList]
      · intro h
        simp [h]
      · intro _ _
        simp
  · rename_i hv
    exact ⟨rfl, rfl, fun h => h, fun _ => rfl, fun he => absurd he hv⟩

theorem chRoute_true_spec (s : PassState) (o : Option Glyph) (c : Glyph)
    (cls : ℤ) :
    destList (chRoute s o c cls true) = destList s ++ [c] ∧
    (chRoute s o c cls true).sstk = s.sstk ∧
    (chRoute s o c cls true).para = s.para ∧
    (chRoute s o c cls true).vstk = s.vstk ++ [c] := by
  unfold chRoute
  simp [destList, List.append_assoc]

theorem perm_snoc_middle {α : Type} (A B V : List α) (c : α) :
    (((A ++ [c]) ++ B) ++ V).Perm (((A ++ B) ++ V) ++ [c]) := by
  have h1 : ((A ++ [c]) ++ B) ++ V = A ++ ([c] ++ (B ++ V)) := by
    simp [List.append_assoc]
  have h2 : (((A ++ B) ++ V)) ++ [c] = A ++ ((B ++ V) ++ [c]) := by
    simp [List.append_assoc]
  rw [h1, h2]
  exact List.Perm.append_left A List.perm_append_comm

theorem chAdjSize_fields (s : PassState) (c : Glyph) :
    (chAdjSize s c).sstk = s.sstk ∧ (chAdjSize s c).para = s.para ∧
    (chAdjSize s c).var = s.var ∧ (chAdjSize s c).vstk = s.vstk := by
  unfold chAdjSize
  split <;> exact ⟨rfl, rfl, rfl, rfl⟩

theorem chRoute_false_spec (s : PassState) (o : Option Glyph) (c : Glyph)
    (cls : ℤ) (hs : s.sstk ≠ []) (hlen : s.para.length = s.sstk.length) :
    (destList (chRoute s o c cls false)).Perm (destList s ++ [c]) ∧
    (chRoute s o c cls false).sstk.length = s.sstk.length ∧
    (chRoute s o c cls false).para.length = (chRoute s o c cls false).sstk.length ∧
    (chRoute s o c cls false).vstk = s.vstk ∧
    (chRoute s o c cls false).sstk ≠ [] := by
  have hpara : s.para ≠ [] := by
    intro hp
    apply hs
    have h2 := hlen
    rw [hp] at h2
    exact List.length_eq_zero.mp h2.symm
  obtain ⟨ha1, ha2, ha3, ha4⟩ := chAdjSize_fields s c
  have hroute : chRoute s o c cls false =
      { chAdjSize s c with
        sstk := updateLast (fun t => t ++ c.text) s.sstk,
        para := updateLast (fun g => g ++ [c]) s.para } := by
    unfold chRoute
    rw [if_pos rfl, ha1, ha2, if_pos hs]
  rw [hroute]
  refine ⟨?_, by simp [updateLast_length], ?_, ha4, updateLast_ne_nil _ _ hs⟩
  · show ((updateLast (fun g => g ++ [c]) s.para).flatten ++
      (chAdjSize s c).var.flatten ++ (chAdjSize s c).vstk).Perm (destList s ++ [c])
    rw [ha3, ha4, flatten_updateLast_concat c s.para hpara]
    unfold destList
    exact perm_snoc_middle s.para.flatten s.var.flatten s.vstk c
  · show (updateLast (fun g => g ++ [c]) s.para).length =
      (updateLast (fun t => t ++ c.text) s.sstk).length
    simp [updateLast_length, hlen]

theorem chTail_spec (s : PassState) (c : Glyph) (cls : ℤ) :
    destList (chTail s c cls) = destList s ∧
    (chTail s c cls).sstk = s.sstk ∧
    (chTail s c cls).para = s.para ∧
    (chTail s c cls).vstk = s.vstk ∧
    (chTail s c cls).xt = some c := by
  unfold chTail
  split <;> exact ⟨rfl, rfl, rfl, rfl, rfl⟩

theorem stepCore_spec (s : PassState) (c : Glyph) (cls : ℤ) (curV : Bool)
    (cond : Prop) [inst : Decidable cond] (bk : ℕ) (hInv : PassInv s)
    (himp : curV = false → cond) :
    (destList (chTail (chRoute (chPara
        (if cond then chFlush { s with vbkt := bk } c cls curV
         else { s with vbkt := bk }) s.xt c cls) s.xt c cls curV) c cls)).Perm
      (destList s ++ [c]) ∧
    PassInv (chTail (chRoute (chPara
        (if cond then chFlush { s with vbkt := bk } c cls curV
         else { s with vbkt := bk }) s.xt c cls) s.xt c cls curV) c cls) := by
  obtain ⟨hlen, hvs, hxs⟩ := hInv
  set s0 : PassState := { s with vbkt := bk } with hs0
  have hd0 : destList s0 = destList s := rfl
  set s1 : PassState := if cond then chFlush s0 c cls curV else s0 with hs1
  have h1 : destList s1 = destList s ∧ s1.sstk.length = s.sstk.length ∧
      s1.para = s.para ∧ (s1.vstk = [] ∨ s1.vstk = s.vstk) ∧ s1.xt = s.xt := by
    rw [hs1]
    split
    · have hf := chFlush_spec s0 c cls curV
      exact ⟨hf.1, hf.2.1, hf.2.2.1, Or.inl hf.2.2.2.1, hf.2.2.2.2⟩
    · exact ⟨rfl, rfl, rfl, Or.inr rfl, rfl⟩
  have h1len : s1.para.length = s1.sstk.length := by
    rw [h1.2.2.1, h1.2.1, hlen]
  have h1sne : s1.sstk = [] ↔ s.sstk = [] := by
    constructor
    · intro hemp
      have hl2 := h1.2.1
      rw [hemp] at hl2
      simpa using hl2.symm
    · intro hemp
      have hl2 := h1.2.1
      rw [hemp] at hl2
      simpa using hl2
  set s2 : PassState := chPara s1 s.xt c cls with hs2
  have hp := chPara_spec s1 s.xt c cls
  have h2dest : destList s2 = destList s := by rw [hs2, hp.1, h1.1]
  have h2len : s2.para.length = s2.sstk.length := hp.2.2.1 h1len
  have h2sne : s2.sstk ≠ [] := by
    rcases h1.2.2.2.1 with hv1 | hv1
    · exact hp.2.2.2.2 hv1 (fun hso => (not_iff_not.mpr h1sne).mpr (hxs hso))
    · by_cases hsv : s.vstk = []
      · rw [hsv] at hv1
        exact hp.2.2.2.2 hv1 (fun hso => (not_iff_not.mpr h1sne).mpr (hxs hso))
      · have hs1id := hp.2.2.2.1 (by rw [hv1]; exact hsv)
        rw [hs2, hs1id]
        exact (not_iff_not.mpr h1sne).mpr (hvs hsv)
  cases curV with
  | true =>
    have hr := chRoute_true_spec s2 s.xt c cls
    have ht := chTail_spec (chRoute s2 s.xt c cls true) c cls
    constructor
    · rw [ht.1, hr.1, h2dest]
    · refine ⟨?_, ?_, ?_⟩
      · rw [ht.2.2.1, ht.2.1, hr.2.2.1, hr.2.1, h2len]
      · intro _
        rw [ht.2.1, hr.2.1]
        exact h2sne
      · intro _
        rw [ht.2.1, hr.2.1]
        exact h2sne
  | false =>
    have hcond : cond := himp rfl
    have hv1 : s1.vstk = [] := by
      rw [hs1, if_pos hcond]
      exact (chFlush_spec s0 c cls false).2.2.2.1
    have hv2 : s2.vstk = [] := by
      rw [hs2, hp.2.1]
      exact hv1
    have hr := chRoute_false_spec s2 s.xt c cls h2sne h2len
    have ht := chTail_spec (chRoute s2 s.xt c cls false) c cls
    constructor
    · rw [ht.1]
      refine hr.1.trans ?_
      rw [h2dest]
    · refine ⟨?_, ?_, ?_⟩
      · rw [ht.2.2.1, ht.2.1]
        exact hr.2.2.1
      · intro _
        rw [ht.2.1]
        exact hr.2.2.2.2
      · intro _
        rw [ht.2.1]
        exact hr.2.2.2.2

theorem stepChar_spec (P : PassParams) (s : PassState) (c : Glyph)
    (hInv : PassInv s) :
    (destList (stepChar P s c)).Perm (destList s ++ [c]) ∧
    PassInv (stepChar P s c) := by
  unfold stepChar
  exact stepCore_spec s c _ _ _ _ hInv (fun h => Or.inl h)

theorem stepLine_spec (P : PassParams) (s : PassState) (l : Segment) :
    destList (stepLine P s l) = destList s ∧
    (PassInv s → PassInv (stepLine P s l)) := by
  unfold stepLine
  split <;> exact ⟨rfl, fun h => h⟩

theorem runPass_spec (P : PassParams) (items : List Item) :
    ∀ s : PassState, PassInv s →
      PassInv (items.foldl (stepItem P) s) ∧
      (destList (items.foldl (stepItem P) s)).Perm
        (destList s ++ itemChars items) := by
  induction items with
  | nil =>
    intro s h
    exact ⟨h, by simp [itemChars]⟩
  | cons it rest ih =>
    intro s h
    simp only [List.foldl_cons]
    cases it with
    | char c =>
      have hc := stepChar_spec P s c h
      obtain ⟨ihInv, ihPerm⟩ := ih (stepChar P s c) hc.2
      refine ⟨ihInv, ?_⟩
      have hstep : stepItem P s (Item.char c) = stepChar P s c := rfl
      rw [hstep]
      refine ihPerm.trans ?_
      refine (List.Perm.append_right (itemChars rest) hc.1).trans ?_
      have : itemChars (Item.char c :: rest) = c :: itemChars rest := by
        simp [itemChars]
      rw [this]
      simp [List.append_assoc]
    | line l =>
      have hl := stepLine_spec P s l
      obtain ⟨ihInv, ihPerm⟩ := ih (stepLine P s l) (hl.2 h)
      refine ⟨ihInv, ?_⟩
      have hstep : stepItem P s (Item.line l) = stepLine P s l := rfl
      rw [hstep]
      refine ihPerm.trans ?_
      rw [hl.1]
      have : itemChars (Item.line l :: rest) = itemChars rest := by
        simp [itemChars]
      rw [this]

theorem finalFlush_dest (s : PassState) (hInv : PassInv s) :
    (finalFlush s).para.flatten ++ (finalFlush s).var.flatten = destList s := by
  unfold finalFlush
  split
  · simp [destList, List.flatten_append, List.append_assoc]
  · rename_i hcond
    have hv : s.vstk = [] := by
      by_contra hne
      exact hcond ⟨hne, hInv.2.1 hne⟩
    simp [destList, hv]

/-- C2: over any page input, every glyph ends up in exactly one Paragraph
or exactly one VariableGroup — the concatenation of all ghost paragraph
memberships and all groups (after the end-of-pass flush) is a permutation
of the page's glyph sequence, so no glyph is dropped or double-counted;
this covers an open group at pass end (assimilated by the final flush,
which can always fire since an open group implies an open paragraph) and a
page starting with non-body glyphs (the first glyph always opens a
paragraph before being routed). -/
theorem c2_glyph_partition (P : PassParams) (items : List Item) :
    ((finalFlush (runPass P items)).para.flatten ++
      (finalFlush (runPass P items)).var.flatten).Perm (itemChars items) := by
  have h0 : PassInv initState := by
    refine ⟨rfl, ?_, ?_⟩
    · intro hv
      exact absurd rfl hv
    · intro hx
      exact absurd hx (by simp [initState])
  have h := runPass_spec P items initState h0
  unfold runPass
  rw [finalFlush_dest _ h.1]
  have hd : destList initState = [] := rfl
  have h2 := h.2
  rw [hd] at h2
  simpa using h2

end DocTrans
